import Mathlib

/-!
# conf.go: range table, record scanner, threshold evaluator, dispatcher

A shallow embedding of `conf.go` (`parseIP`, `parseNetworksMy`,
`searchIPInNetworks`, `JsonPiper.setupScanner`, `Fast`) and theorems about it.

Conventions of the embedding:
* a byte is a natural number (`0..255` for real input), a byte slice is a list;
* `uint32` / `uint64` values are natural numbers reduced `% 2^32` / `% 2^64`
  wherever the Go operation can wrap;
* code that can panic returns a `Res`; loops that are not structurally
  recursive carry a loop budget, and running out of it is reported as
  `Res.fuel`, kept apart from `Res.panic`.
-/

namespace Conf

/-- A byte of the input. -/
abbrev Byte := Nat

/-- The bytes of an ASCII text. -/
def ascii (s : String) : List Byte := s.data.map Char.toNat

/-- Outcome of a run: a value, a Go runtime panic, or an exhausted loop budget
of the model (the last one is not a behaviour of the program). -/
inductive Res (α : Type) where
  | ok (a : α)
  | panic
  | fuel
deriving DecidableEq, Repr

/-- Sequencing of runs: the first failure wins. -/
def Res.bind {α β : Type} (r : Res α) (f : α → Res β) : Res β :=
  match r with
  | .ok a => f a
  | .panic => .panic
  | .fuel => .fuel

/-! ## Addresses and ranges -/

/-- The modulus of `uint32`. -/
def u32 : Nat := 4294967296

/-- The modulus of `uint64`. -/
def u64 : Nat := 18446744073709551616

/-- Go's `x << s` on a `uint32` left operand: the result wraps to 32 bits and
is zero once the shift count reaches the width. -/
def shl32 (x s : Nat) : Nat := if s < 32 then (x <<< s) % u32 else 0

/-- An `IPRange` of the source: base address, masked base and mask. -/
structure IPRange where
  IP : Nat
  IPMasked : Nat
  Mask : Nat
deriving DecidableEq, Repr

/-- Method `IPRange.Contains`: `r.IPMasked == ip&r.Mask`. -/
def IPRange.Contains (r : IPRange) (ip : Nat) : Bool := r.IPMasked == ip &&& r.Mask

/-- The loop of `searchIPInNetworks`, with `min` and `max` as loop state. -/
def searchLoop (ip : Nat) (networks : List IPRange) : Nat → Nat → Nat → Res Bool
  | 0, _, _ => .fuel
  | fuel + 1, min, max =>
    if min < max then
      let medium := (min + max) / 2
      match networks[medium]? with
      | none => .panic
      | some r =>
        if r.Contains ip then .ok true
        else if ip < r.IP then searchLoop ip networks fuel min medium
        else searchLoop ip networks fuel (medium + 1) max
    else .ok false

/-- Function `searchIPInNetworks`: bisection over the table by base address. -/
def searchIPInNetworks (ip : Nat) (networks : List IPRange) : Res Bool :=
  searchLoop ip networks (networks.length + 1) 0 networks.length

/-- The `for n, ch = range []byte(s)` loop of `parseIP`: `i` is the index of
the byte at the head of the list; the result is `(ip, oct, n)`. -/
def parseIPLoop : List Byte → Nat → Nat → Nat → Nat → Nat → Nat × Nat × Nat
  | [], _, ip, oct, _, n => (ip, oct, n)
  | ch :: rest, i, ip, oct, shift, _ =>
    if ch = 46 then
      parseIPLoop rest (i + 1) ((ip + shl32 oct shift) % u32) 0 ((shift + u32 - 8) % u32) i
    else if 48 ≤ ch ∧ ch ≤ 57 then
      parseIPLoop rest (i + 1) ip ((oct * 10 + (ch - 48)) % u32) shift i
    else (ip, oct, i)

/-- Function `parseIP`: returns the address and the index `n` at which the
scan stopped (the last index visited; `0` for the empty string). -/
def parseIP (s : List Byte) : Nat × Nat :=
  match parseIPLoop s 0 0 0 24 0 with
  | (ip, oct, n) => (if oct > 0 then (ip + oct) % u32 else ip, n)

/-- Go's `strconv.ParseUint(s, 10, 32)`, digit loop over the bytes with the
value `n` read so far: a byte that is no digit is a syntax error (value `0`),
a value that leaves the 32-bit range stops the scan with the maximum value
and a range error. The result is `(value, failed)`. -/
def parseUintLoop : List Byte → Nat → Nat × Bool
  | [], n => (n, false)
  | c :: rest, n =>
    if 48 ≤ c ∧ c ≤ 57 then
      if n * 10 + (c - 48) > u32 - 1 then (u32 - 1, true)
      else parseUintLoop rest (n * 10 + (c - 48))
    else (0, true)

/-- Go's `strconv.ParseUint(s, 10, 32)` as `(value, failed)`: the empty string
and any non-digit give `(0, true)`, an overflow gives `(2^32 - 1, true)`. -/
def parseUint (s : List Byte) : Nat × Bool :=
  match s with
  | [] => (0, true)
  | _ => parseUintLoop s 0

/-- One iteration of the loop of `parseNetworksMy`: the slice `n[l+1:]`
panics when `l + 1` exceeds the length; the error of `ParseUint` is dropped. -/
def parseNetwork (n : List Byte) : Res IPRange :=
  match parseIP n with
  | (ip, l) =>
    if l + 1 ≤ n.length then
      let mask := (parseUint (n.drop (l + 1))).1
      let m := shl32 4294967295 ((32 + u64 - mask) % u64)
      .ok { IP := ip, Mask := m, IPMasked := ip &&& m }
    else .panic

/-- The parsing loop of `parseNetworksMy` over all specs, in order. -/
def parseNetworksLoop : List (List Byte) → Res (List IPRange)
  | [] => .ok []
  | n :: rest =>
    match parseNetwork n with
    | .ok r =>
      match parseNetworksLoop rest with
      | .ok rs => .ok (r :: rs)
      | .panic => .panic
      | .fuel => .fuel
    | .panic => .panic
    | .fuel => .fuel

/-- Insertion step of the sort: `x` moves left past the elements it is
strictly less than. -/
def insertBy {α : Type} (less : α → α → Bool) (x : α) : List α → List α
  | [] => [x]
  | y :: ys => if less x y then x :: y :: ys else y :: insertBy less x ys

/-- Go's `sort.Slice(xs, less)`, as the insertion sort the library runs on
short slices. The library promises a permutation sorted by `less`, and no
order among ties. -/
def sortSlice {α : Type} (less : α → α → Bool) (xs : List α) : List α :=
  xs.foldl (fun acc x => insertBy less x acc) []

/-- Function `parseNetworksMy`: parse every spec, then sort by base address. -/
def parseNetworksMy (netRaw : List (List Byte)) : Res (List IPRange) :=
  match parseNetworksLoop netRaw with
  | .ok rs => .ok (sortSlice (fun a b => decide (a.IP < b.IP)) rs)
  | .panic => .panic
  | .fuel => .fuel

/-! ## Record scanner -/

/-- The `InMy` record of the source. A nil slice is the empty list. -/
structure InMy where
  Browsers : List (List Byte)
  Hits : List (List Byte)
  Name : List Byte
  Email : List Byte
deriving DecidableEq, Repr

/-- The `JsonPiper` of the source: the eight field names. -/
structure JsonPiper where
  strBrowsers : List Byte
  strCompany : List Byte
  strCountry : List Byte
  strEmail : List Byte
  strHits : List Byte
  strJob : List Byte
  strName : List Byte
  strPhone : List Byte
deriving DecidableEq, Repr

/-- Method `JsonPiper.init`. -/
def JsonPiper.init : JsonPiper :=
  { strBrowsers := ascii "browsers", strCompany := ascii "company",
    strCountry := ascii "country", strEmail := ascii "email",
    strHits := ascii "hits", strJob := ascii "job",
    strName := ascii "name", strPhone := ascii "phone" }

/-- Go's `bytes.IndexByte`: index of the first `b`, `none` for `-1`. -/
def indexByte (b : Byte) : List Byte → Option Nat
  | [] => none
  | c :: cs => if c = b then some 0 else (indexByte b cs).map (· + 1)

/-- Closure `checkCh` of `setupScanner`. The scanner state `pos` is kept as
the unread rest `js[pos:]` of the line; reading past the end panics. -/
def checkCh (want : Byte) : List Byte → Res (List Byte)
  | [] => .panic
  | c :: rest => if c = want then .ok rest else .panic

/-- Closure `getCh` of `setupScanner`. -/
def getCh : List Byte → Res (Byte × List Byte)
  | [] => .panic
  | c :: rest => .ok (c, rest)

/-- Closure `fetchString` of `setupScanner`: with no closing quote the slice
`js[pos : pos-1]` panics. -/
def fetchString (js : List Byte) : Res (List Byte × List Byte) :=
  (checkCh 34 js).bind fun rest =>
    match indexByte 34 rest with
    | none => .panic
    | some p => .ok (rest.take p, rest.drop (p + 1))

/-- The loop of closure `fetchSliceOfStrings`, after the opening bracket. -/
def fetchSliceLoop : Nat → List (List Byte) → List Byte → Res (List (List Byte) × List Byte)
  | 0, _, _ => .fuel
  | fuel + 1, slice, js =>
    (fetchString js).bind fun (s, js1) =>
      (getCh js1).bind fun (c, js2) =>
        if c = 93 then .ok (slice ++ [s], js2)
        else if c = 44 then fetchSliceLoop fuel (slice ++ [s]) js2
        else .panic

/-- Closure `fetchSliceOfStrings` of `setupScanner`. -/
def fetchSliceOfStrings (js : List Byte) : Res (List (List Byte) × List Byte) :=
  (checkCh 91 js).bind fun rest => fetchSliceLoop (rest.length + 1) [] rest

/-- The dispatch on the section name in the scanner closure. -/
def scanSection (jp : JsonPiper) (sect : List Byte) (inp : InMy) (js : List Byte) :
    Res (InMy × List Byte) :=
  if sect = jp.strBrowsers then
    (fetchSliceOfStrings js).bind fun (sl, r) => .ok ({ inp with Browsers := sl }, r)
  else if sect = jp.strCompany then
    (fetchString js).bind fun (_, r) => .ok (inp, r)
  else if sect = jp.strCountry then
    (fetchString js).bind fun (_, r) => .ok (inp, r)
  else if sect = jp.strEmail then
    (fetchString js).bind fun (s, r) => .ok ({ inp with Email := s }, r)
  else if sect = jp.strHits then
    (fetchSliceOfStrings js).bind fun (sl, r) => .ok ({ inp with Hits := sl }, r)
  else if sect = jp.strJob then
    (fetchString js).bind fun (_, r) => .ok (inp, r)
  else if sect = jp.strName then
    (fetchString js).bind fun (s, r) => .ok ({ inp with Name := s }, r)
  else if sect = jp.strPhone then
    (fetchString js).bind fun (_, r) => .ok (inp, r)
  else .panic

/-- The `for` loop of the closure returned by `setupScanner`: the result is
the returned `bool`, the record and the unread rest. -/
def scanLoop (jp : JsonPiper) : Nat → InMy → List Byte → Res (Bool × InMy × List Byte)
  | 0, _, _ => .fuel
  | fuel + 1, inp, js =>
    if js.isEmpty then .ok (false, inp, js)
    else
      (fetchString js).bind fun (sect, js1) =>
        (checkCh 58 js1).bind fun js2 =>
          (scanSection jp sect inp js2).bind fun (inp1, js3) =>
            (getCh js3).bind fun (c, js4) =>
              if c = 44 then scanLoop jp fuel inp1 js4
              else if c = 125 then .ok (true, inp1, js4)
              else .panic

/-- Method `setupScanner`, the part run at set-up: `checkCh('{')`. The result
is the state of the returned closure. -/
def setupScanner (js : List Byte) : Res (List Byte) := checkCh 123 js

/-- One call of the closure returned by `setupScanner`. -/
def scanner (jp : JsonPiper) (inp : InMy) (js : List Byte) : Res (Bool × InMy × List Byte) :=
  scanLoop jp (js.length + 1) inp js

/-! ## User-agent pattern -/

/-- Width of the rune that Go's `utf8.DecodeRune` reads at the head of the
bytes (`0` at the end of input, `1` for ASCII and for an invalid sequence). -/
def runeWidth : List Byte → Nat
  | [] => 0
  | p0 :: rest =>
    let cont (b : Byte) : Bool := 128 ≤ b && b ≤ 191
    let two (lo hi : Nat) : Nat :=
      match rest with
      | b1 :: _ => if lo ≤ b1 && b1 ≤ hi then 2 else 1
      | _ => 1
    let three (lo hi : Nat) : Nat :=
      match rest with
      | b1 :: b2 :: _ => if lo ≤ b1 && b1 ≤ hi && cont b2 then 3 else 1
      | _ => 1
    let four (lo hi : Nat) : Nat :=
      match rest with
      | b1 :: b2 :: b3 :: _ => if lo ≤ b1 && b1 ≤ hi && cont b2 && cont b3 then 4 else 1
      | _ => 1
    if p0 < 194 then 1
    else if p0 ≤ 223 then two 128 191
    else if p0 = 224 then three 160 191
    else if p0 ≤ 236 then three 128 191
    else if p0 = 237 then three 128 159
    else if p0 ≤ 239 then three 128 191
    else if p0 = 240 then four 144 191
    else if p0 ≤ 243 then four 128 191
    else if p0 = 244 then four 128 143
    else 1

/-- A token of a regular expression without repetition: a literal byte or
the dot. -/
inductive Tok where
  | lit (b : Byte)
  | any
deriving DecidableEq, Repr

/-- Match of a token sequence at the head of the input. The dot of Go's
`regexp` takes one rune, of any value but the newline. -/
def matchToks : List Tok → List Byte → Bool
  | [], _ => true
  | .lit _ :: _, [] => false
  | .lit b :: ts, c :: cs => c == b && matchToks ts cs
  | .any :: _, [] => false
  | .any :: ts, c :: cs => c != 10 && matchToks ts ((c :: cs).drop (runeWidth (c :: cs)))

/-- Unanchored search for a token sequence. Every sequence searched here
starts with an ASCII literal, and an ASCII byte always starts a rune, so the
search may try every byte offset. -/
def searchToks (ts : List Tok) : List Byte → Bool
  | [] => matchToks ts []
  | c :: cs => matchToks ts (c :: cs) || searchToks ts cs

/-- The tokens of a pattern text in which only the dot is special. -/
def reToks (s : String) : List Tok :=
  s.data.map fun c => if c = '.' then Tok.any else Tok.lit c.toNat

/-- The three alternatives of `userAgentRe`,
`Chrome/(60.0.3112.90|52.0.2743.116|57.0.2987.133)`. -/
def userAgentAlts : List (List Tok) :=
  [reToks "Chrome/60.0.3112.90", reToks "Chrome/52.0.2743.116", reToks "Chrome/57.0.2987.133"]

/-- Call `userAgentRe.Match(browser)`. -/
def userAgentMatch (browser : List Byte) : Bool :=
  userAgentAlts.any fun ts => searchToks ts browser

/-! ## Threshold evaluator, dispatcher and collector -/

/-- Constant `hitsThresh`. -/
def hitsThresh : Nat := 3

/-- Constant `browsersThresh`. -/
def browsersThresh : Nat := 3

/-- The `ResultRow` of `Fast`. -/
structure ResultRow where
  Line : List Byte
  Pos : Nat
deriving DecidableEq, Repr

/-- The loop over `in.Hits` in the task of `Fast`: the new value of `hitsCnt`. -/
def countHits (netParsed : List IPRange) : List (List Byte) → Nat → Res Nat
  | [], hitsCnt => .ok hitsCnt
  | hit :: rest, hitsCnt =>
    match searchIPInNetworks (parseIP hit).1 netParsed with
    | .ok true =>
      if hitsCnt + 1 ≥ hitsThresh then .ok (hitsCnt + 1)
      else countHits netParsed rest (hitsCnt + 1)
    | .ok false => countHits netParsed rest hitsCnt
    | .panic => .panic
    | .fuel => .fuel

/-- The loop over `in.Browsers` in the task of `Fast`: the new value of
`browsersCnt`. -/
def countBrowsers : List (List Byte) → Nat → Nat
  | [], browsersCnt => browsersCnt
  | browser :: rest, browsersCnt =>
    if !userAgentMatch browser then countBrowsers rest browsersCnt
    else if browsersCnt + 1 ≥ browsersThresh then browsersCnt + 1
    else countBrowsers rest (browsersCnt + 1)

/-- Decimal digits of a natural number, most significant first; `ds` is the
text already produced for the lower digits. -/
def decimalCore : Nat → Nat → List Byte → List Byte
  | 0, _, ds => ds
  | fuel + 1, n, ds =>
    if n / 10 = 0 then (48 + n % 10) :: ds
    else decimalCore fuel (n / 10) ((48 + n % 10) :: ds)

/-- The verb `%d` of Go's `fmt` on a non-negative integer. -/
def decimal (n : Nat) : List Byte := decimalCore (n + 1) n []

/-- Go's `bytes.Replace(s, old, new, 1)` for a one-byte `old`: the first
occurrence is replaced. -/
def replaceFirst (old : Byte) (new : List Byte) : List Byte → List Byte
  | [] => []
  | c :: cs => if c = old then new ++ cs else c :: replaceFirst old new cs

/-- The result row built for a passing record:
`fmt.Sprintf("[%d] %s <%s>\n", userId, in.Name, email)`. -/
def formatRow (userId : Nat) (inp : InMy) : ResultRow :=
  { Line := ascii "[" ++ decimal userId ++ ascii "] " ++ inp.Name ++ ascii " <" ++
      replaceFirst 64 (ascii " [at] ") inp.Email ++ ascii ">\n",
    Pos := userId }

/-- The body of the task's `for` loop after a record was scanned: the new
counters and the row appended to the results, if any. -/
def evalRecord (netParsed : List IPRange) (userId hitsCnt browsersCnt : Nat) (inp : InMy) :
    Res (Nat × Nat × Option ResultRow) :=
  (countHits netParsed inp.Hits hitsCnt).bind fun h =>
    if h < hitsThresh then .ok (h, browsersCnt, none)
    else
      let b := countBrowsers inp.Browsers browsersCnt
      if b < browsersThresh then .ok (h, b, none)
      else .ok (h, b, some (formatRow userId inp))

/-- The `for` loop of the task started for one line: scan a record, evaluate
it, repeat until the scanner returns `false`. The result is the rows the task
appends, in order. -/
def taskLoop (jp : JsonPiper) (netParsed : List IPRange) (userId : Nat) :
    Nat → Nat → Nat → InMy → List Byte → Res (List ResultRow)
  | 0, _, _, _, _ => .fuel
  | fuel + 1, hitsCnt, browsersCnt, inp, js =>
    (scanner jp inp js).bind fun (more, inp1, js1) =>
      if !more then .ok []
      else
        (evalRecord netParsed userId hitsCnt browsersCnt inp1).bind fun (h, b, row) =>
          (taskLoop jp netParsed userId fuel h b inp1 js1).bind fun rows =>
            .ok (row.toList ++ rows)

/-- The task `go func(userId int, line []byte)` of `Fast`. -/
def runTask (jp : JsonPiper) (netParsed : List IPRange) (userId : Nat) (line : List Byte) :
    Res (List ResultRow) :=
  (setupScanner line).bind fun js =>
    taskLoop jp netParsed userId (line.length + 1) 0 0 ⟨[], [], [], []⟩ js

/-- The value of `nPos` in the line-splitting loop of `Fast`:
`bytes.IndexByte(buf[bufPos:], '\n')`, replaced by `len(buf) - 1` when it
is `-1`. -/
def lineEnd (buf : List Byte) (bufPos : Nat) : Nat :=
  match indexByte 10 (buf.drop bufPos) with
  | some p => p
  | none => buf.length - 1

/-- The line-splitting loop of `Fast`. `spare` holds the bytes of the backing
array of `buf` past its length: a slice expression may reach into them, and
panics past the capacity. The result is the `(userId, line)` pairs in input
order. -/
def dispatchLoop (buf spare : List Byte) : Nat → Nat → Nat → Res (List (Nat × List Byte))
  | 0, _, _ => .fuel
  | fuel + 1, bufPos, userId =>
    if bufPos < buf.length then
      if bufPos + lineEnd buf bufPos ≤ buf.length + spare.length then
        (dispatchLoop buf spare fuel (bufPos + lineEnd buf bufPos + 1) (userId + 1)).bind
          fun rest =>
            .ok ((userId, ((buf ++ spare).drop bufPos).take (lineEnd buf bufPos)) :: rest)
      else .panic
    else .ok []

/-- The lines that `Fast` hands to its tasks. -/
def dispatch (buf spare : List Byte) : Res (List (Nat × List Byte)) :=
  dispatchLoop buf spare (buf.length + 1) 0 1

/-- All tasks, in dispatch order: the rows of each. -/
def runTasks (jp : JsonPiper) (netParsed : List IPRange) :
    List (Nat × List Byte) → Res (List (List ResultRow))
  | [] => .ok []
  | (userId, line) :: rest =>
    (runTask jp netParsed userId line).bind fun rows =>
      (runTasks jp netParsed rest).bind fun more => .ok (rows :: more)

/-- The end of `Fast`, after `wg.Wait()`: header, sort by `Pos`, write. -/
def emit (results : List ResultRow) : List Byte :=
  ascii "Total: " ++ decimal results.length ++ ascii "\n" ++
    ((sortSlice (fun a b => decide (a.Pos < b.Pos)) results).map (·.Line)).flatten

/-- The rows collected by `Fast` when the tasks append in dispatch order. -/
def collect (buf spare : List Byte) (networks : List (List Byte)) : Res (List ResultRow) :=
  (parseNetworksMy networks).bind fun netParsed =>
    (dispatch buf spare).bind fun lines =>
      (runTasks JsonPiper.init netParsed lines).bind fun rowss => .ok rowss.flatten

/-- Function `Fast` on the input `buf`, run sequentially: the bytes written
to `out`. -/
def Fast (buf spare : List Byte) (networks : List (List Byte)) : Res (List Byte) :=
  (collect buf spare networks).bind fun results => .ok (emit results)

/-! ## Vocabulary of the statements -/

/-- A network spec `A.B.C.D/N` given by its numbers. -/
structure Spec where
  a : Nat
  b : Nat
  c : Nat
  d : Nat
  n : Nat
deriving DecidableEq, Repr

/-- The text `A.B.C.D/N` of a spec, numbers in decimal. -/
def Spec.text (s : Spec) : List Byte :=
  decimal s.a ++ ascii "." ++ decimal s.b ++ ascii "." ++ decimal s.c ++ ascii "." ++
    decimal s.d ++ ascii "/" ++ decimal s.n

/-- Octets in `0..255` and prefix length in `0..32`. -/
def Spec.WF (s : Spec) : Prop :=
  s.a ≤ 255 ∧ s.b ≤ 255 ∧ s.c ≤ 255 ∧ s.d ≤ 255 ∧ s.n ≤ 32

/-- The address `A.B.C.D` as a number. -/
def Spec.addr (s : Spec) : Nat := s.a * 2 ^ 24 + s.b * 2 ^ 16 + s.c * 2 ^ 8 + s.d

/-- Two ranges overlap when some 32-bit address lies in both. -/
def Overlap (r s : IPRange) : Prop := ∃ ip, ip < u32 ∧ r.Contains ip = true ∧ s.Contains ip = true

/-- A range as `parseNetworksMy` builds it from a prefix length: a 32-bit
base, a mask of leading ones, and the masked base. -/
def IPRange.IsBlock (r : IPRange) : Prop :=
  r.IP < u32 ∧ (∃ k, k ≤ 32 ∧ r.Mask = u32 - 2 ^ k) ∧ r.IPMasked = r.IP &&& r.Mask

/-- The precondition of the bisection: prefix ranges, sorted by base address,
no two of them overlapping. -/
def TableOK (t : List IPRange) : Prop :=
  (∀ r ∈ t, r.IsBlock) ∧ t.Pairwise (fun r s => r.IP ≤ s.IP) ∧
    t.Pairwise (fun r s => ¬ Overlap r s)

/-- A linear scan of the table for a range that contains the address. -/
def linearScan (ip : Nat) (t : List IPRange) : Bool := t.any fun r => r.Contains ip

/-- The value of a field in an object text: a string or an array of strings. -/
inductive FieldVal where
  | str (s : List Byte)
  | arr (l : List (List Byte))
deriving DecidableEq, Repr

/-- A string between double quotes. -/
def quote (s : List Byte) : List Byte := 34 :: (s ++ [34])

/-- Quoted strings separated by commas. -/
def renderStrings : List (List Byte) → List Byte
  | [] => []
  | [s] => quote s
  | s :: t :: rest => quote s ++ 44 :: renderStrings (t :: rest)

/-- The text of a field value: `"s"` or `["a","b",...]`. -/
def FieldVal.render : FieldVal → List Byte
  | .str s => quote s
  | .arr l => 91 :: (renderStrings l ++ [93])

/-- The text `"name":value` of a field. -/
def renderField (f : List Byte × FieldVal) : List Byte :=
  quote f.1 ++ 58 :: f.2.render

/-- Fields separated by commas. -/
def renderFields : List (List Byte × FieldVal) → List Byte
  | [] => []
  | [f] => renderField f
  | f :: g :: rest => renderField f ++ 44 :: renderFields (g :: rest)

/-- The object text `{"f1":v1,...}` without whitespace. -/
def renderObject (fs : List (List Byte × FieldVal)) : List Byte :=
  123 :: (renderFields fs ++ [125])

/-- The eight fields of the schema with the given values, in the order of
the source comment. -/
def schemaFields (browsers hits : List (List Byte))
    (name email company country job phone : List Byte) : List (List Byte × FieldVal) :=
  [(ascii "browsers", .arr browsers), (ascii "company", .str company),
   (ascii "country", .str country), (ascii "email", .str email),
   (ascii "hits", .arr hits), (ascii "job", .str job),
   (ascii "name", .str name), (ascii "phone", .str phone)]

/-- The reference decision on a record: at least three hits that the table
search finds, and at least three browsers that match the pattern, all entries
counted. -/
def passesRef (netParsed : List IPRange) (inp : InMy) : Bool :=
  decide (hitsThresh ≤ inp.Hits.countP fun h =>
      decide (searchIPInNetworks (parseIP h).1 netParsed = .ok true)) &&
    decide (browsersThresh ≤ inp.Browsers.countP userAgentMatch)

/-- The line of the end-to-end scenario. -/
def scenarioLine : List Byte :=
  ascii ("\x7b\"browsers\":[\"Chrome/60.0.3112.90\",\"Chrome/52.0.2743.116\"," ++
    "\"Chrome/57.0.2987.133\"],\"company\":\"A\",\"country\":\"X\",\"email\":\"a@b.com\"," ++
    "\"hits\":[\"10.0.0.1\",\"10.0.0.2\",\"10.0.0.3\"],\"job\":\"Y\",\"name\":\"Ann\"," ++
    "\"phone\":\"1\"\x7d")

/-- The value that the octet accumulator of `parseIP` takes over a run of digits. -/
def foldDigits (oct : Nat) (ds : List Byte) : Nat :=
  ds.foldl (fun o c => (o * 10 + (c - 48)) % u32) oct

/-- The range that a spec denotes: the base `A.B.C.D`, the mask of the
leading `N` bits, and the masked base. -/
def Spec.range (s : Spec) : IPRange :=
  { IP := s.addr, Mask := u32 - 2 ^ (32 - s.n), IPMasked := s.addr &&& (u32 - 2 ^ (32 - s.n)) }

/-- The effect of one scanned field on the record: the four retained fields
are stored, the other four leave the record as it is. -/
def updField (inp : InMy) (f : List Byte × FieldVal) : InMy :=
  match f.2 with
  | .arr l =>
    if f.1 = ascii "browsers" then { inp with Browsers := l }
    else if f.1 = ascii "hits" then { inp with Hits := l }
    else inp
  | .str s =>
    if f.1 = ascii "email" then { inp with Email := s }
    else if f.1 = ascii "name" then { inp with Name := s }
    else inp

/-- No string of the schema values holds a double quote, and the two arrays
are not empty. -/
def QuoteFree (browsers hits : List (List Byte))
    (name email company country job phone : List Byte) : Prop :=
  browsers ≠ [] ∧ hits ≠ [] ∧ (∀ s ∈ browsers, 34 ∉ s) ∧ (∀ s ∈ hits, 34 ∉ s) ∧
    34 ∉ name ∧ 34 ∉ email ∧ 34 ∉ company ∧ 34 ∉ country ∧ 34 ∉ job ∧ 34 ∉ phone

/-- The rows of the passing records, line by line in input order: the line
`l` with its record `rec` gives one row if the record passes, none if not. -/
def passingRows (netParsed : List IPRange) :
    List (Nat × List Byte) → List InMy → List ResultRow
  | l :: ls, r :: rs =>
    (if passesRef netParsed r then [formatRow l.1 r] else []) ++ passingRows netParsed ls rs
  | _, _ => []

/-- The line holds exactly one object: the scanner returns a record and has
used up the line. -/
def OneRecord (line : List Byte) (r : InMy) : Prop :=
  ∃ js, setupScanner line = .ok js ∧
    scanner JsonPiper.init ⟨[], [], [], []⟩ js = .ok (true, r, [])

/-- A line that holds a record with two hits in range, followed by a second
run of fields with one more hit. -/
def splitHitsLine : List Byte :=
  ascii ("\x7b\"hits\":[\"10.0.0.1\",\"10.0.0.2\"],\"browsers\":[\"Chrome/60.0.3112.90\"," ++
    "\"Chrome/52.0.2743.116\",\"Chrome/57.0.2987.133\"],\"name\":\"n\",\"email\":\"e\"\x7d" ++
    "\"hits\":[\"10.0.0.3\"]\x7d")

/-- A line that holds a passing record, followed by a second run of fields
that renames it. -/
def renamedLine : List Byte :=
  ascii ("\x7b\"hits\":[\"10.0.0.1\",\"10.0.0.2\",\"10.0.0.3\"],\"browsers\":[" ++
    "\"Chrome/60.0.3112.90\",\"Chrome/52.0.2743.116\",\"Chrome/57.0.2987.133\"]," ++
    "\"name\":\"n\",\"email\":\"e\"\x7d\"name\":\"b\"\x7d")

/-- The three signatures of the pattern, as browser entries. -/
def chromeBrowsers : List (List Byte) :=
  [ascii "Chrome/60.0.3112.90", ascii "Chrome/52.0.2743.116", ascii "Chrome/57.0.2987.133"]

/-- The table of the single network `10.0.0.0/24`. -/
def net24 : List IPRange := [⟨167772160, 167772160, 4294967040⟩]

/-- The table of the networks `9.1.2.3/8` and `10.0.0.0/24`. -/
def twoNets : List IPRange := [Spec.range ⟨9, 1, 2, 3, 8⟩, Spec.range ⟨10, 0, 0, 0, 24⟩]

/-- The table that `parseNetworksMy` builds from `10.0.0.0/8`, `10.1.0.0/16`
and `10.2.0.0/16`: the first range overlaps the other two. -/
def overlapTable : List IPRange :=
  [⟨167772160, 167772160, 4278190080⟩, ⟨167837696, 167837696, 4294901760⟩,
   ⟨167903232, 167903232, 4294901760⟩]

/-- A record with three hits in `10.0.0.0/8` (outside the two smaller ranges)
and the three signatures as browsers. -/
def driftRecord : InMy :=
  { Browsers := chromeBrowsers, Hits := [ascii "10.5.0.1", ascii "10.5.0.2", ascii "10.5.0.3"],
    Name := ascii "Ann", Email := ascii "a@b.com" }

/-- The record of the scenario line. -/
def annRecord : InMy :=
  { Browsers := chromeBrowsers, Hits := [ascii "10.0.0.1", ascii "10.0.0.2", ascii "10.0.0.3"],
    Name := ascii "Ann", Email := ascii "a@b.com" }

/-- The scenario line twice, each terminated by a newline. -/
def twoLines : List Byte := scenarioLine ++ ascii "\n" ++ (scenarioLine ++ ascii "\n")

/-- The text `a.b.c.d` of four numbers in decimal. -/
def dotted (a b c d : Nat) : List Byte :=
  decimal a ++ ascii "." ++ decimal b ++ ascii "." ++ decimal c ++ ascii "." ++ decimal d

/-- Method `IP.String`:
`fmt.Sprintf("%d.%d.%d.%d", ip>>24, (ip>>16)&0xFF, (ip>>8)&0xFF, ip&0xFF)`. -/
def IP.String (ip : Nat) : List Byte :=
  dotted (ip >>> 24) ((ip >>> 16) &&& 255) ((ip >>> 8) &&& 255) (ip &&& 255)

/-- The range `r` is the one that the spec `s` describes: base `A.B.C.D`,
mask of the leading `N` bits, masked base, and membership by agreement on the
leading `N` bits. -/
def IPRange.BuiltFrom (r : IPRange) (s : Spec) : Prop :=
  r.IP = s.addr ∧ r.Mask = 2 ^ 32 - 2 ^ (32 - s.n) ∧
    (∀ i, r.Mask.testBit i = decide (32 - s.n ≤ i ∧ i < 32)) ∧
    r.IPMasked = r.IP &&& r.Mask ∧
    ∀ addr, addr < u32 →
      (r.Contains addr = true ↔ addr >>> (32 - s.n) = s.addr >>> (32 - s.n))

/-- The eight field names that the scanner recognises. -/
def recognisedNames : List (List Byte) :=
  [ascii "browsers", ascii "company", ascii "country", ascii "email", ascii "hits",
   ascii "job", ascii "name", ascii "phone"]

/-- A field of an object text: neither its name nor any string of its value
holds a double quote. -/
def FieldQuoteFree (f : List Byte × FieldVal) : Prop :=
  34 ∉ f.1 ∧
    match f.2 with
    | .str s => 34 ∉ s
    | .arr l => ∀ s ∈ l, 34 ∉ s

/-- Whether `pat` occurs in `s` as a contiguous run of bytes. -/
def containsSub (pat : List Byte) : List Byte → Bool
  | [] => pat.isEmpty
  | c :: cs => pat.isPrefixOf (c :: cs) || containsSub pat cs

/-- The scenario object without its `phone` field. -/
def noPhoneFields : List (List Byte × FieldVal) :=
  [(ascii "browsers", .arr chromeBrowsers), (ascii "company", .str (ascii "A")),
   (ascii "country", .str (ascii "X")), (ascii "email", .str (ascii "a@b.com")),
   (ascii "hits", .arr [ascii "10.0.0.1", ascii "10.0.0.2", ascii "10.0.0.3"]),
   (ascii "job", .str (ascii "Y")), (ascii "name", .str (ascii "Ann"))]

/-! # Lemmas -/

/-! ## Sorting -/

theorem insertBy_perm {α : Type} (less : α → α → Bool) (x : α) (l : List α) :
    (insertBy less x l).Perm (x :: l) := by
  induction l with
  | nil => simp [insertBy]
  | cons y ys ih =>
    unfold insertBy
    split
    · exact List.Perm.refl _
    · exact (List.Perm.cons y ih).trans (List.Perm.swap x y ys)

theorem foldl_insertBy_perm {α : Type} (less : α → α → Bool) (xs acc : List α) :
    (xs.foldl (fun acc x => insertBy less x acc) acc).Perm (acc ++ xs) := by
  induction xs generalizing acc with
  | nil => simp
  | cons x xs ih =>
    simp only [List.foldl_cons]
    refine (ih _).trans ?_
    refine (List.Perm.append_right xs (insertBy_perm less x acc)).trans ?_
    simp only [List.cons_append]
    exact (List.perm_middle).symm

theorem sortSlice_perm {α : Type} (less : α → α → Bool) (xs : List α) :
    (sortSlice less xs).Perm xs := by
  simpa [sortSlice] using foldl_insertBy_perm less xs []

/-- Inserting into a list sorted by a key keeps it sorted. -/
theorem insertBy_sorted {α : Type} (key : α → Nat) (x : α) (l : List α)
    (h : l.Pairwise (fun a b => key a ≤ key b)) :
    (insertBy (fun a b => decide (key a < key b)) x l).Pairwise (fun a b => key a ≤ key b) := by
  induction l with
  | nil => simp [insertBy]
  | cons y ys ih =>
    unfold insertBy
    rw [List.pairwise_cons] at h
    split
    · rename_i hlt
      simp only [decide_eq_true_eq] at hlt
      refine List.pairwise_cons.2 ⟨?_, List.pairwise_cons.2 h⟩
      intro z hz
      rcases List.mem_cons.1 hz with rfl | hz
      · omega
      · have := h.1 z hz; omega
    · rename_i hlt
      simp only [decide_eq_true_eq, not_lt] at hlt
      refine List.pairwise_cons.2 ⟨?_, ih h.2⟩
      intro z hz
      rcases List.mem_cons.1 ((insertBy_perm _ x ys).subset hz) with rfl | hz
      · exact hlt
      · exact h.1 z hz

theorem foldl_insertBy_sorted {α : Type} (key : α → Nat) (xs acc : List α)
    (h : acc.Pairwise (fun a b => key a ≤ key b)) :
    (xs.foldl (fun acc x => insertBy (fun a b => decide (key a < key b)) x acc) acc).Pairwise
      (fun a b => key a ≤ key b) := by
  induction xs generalizing acc with
  | nil => simpa using h
  | cons x xs ih => exact ih _ (insertBy_sorted key x acc h)

theorem sortSlice_sorted {α : Type} (key : α → Nat) (xs : List α) :
    (sortSlice (fun a b => decide (key a < key b)) xs).Pairwise (fun a b => key a ≤ key b) :=
  foldl_insertBy_sorted key xs [] List.Pairwise.nil

/-- Two lists with the same elements, both strictly ascending in a key, are equal. -/
theorem eq_of_perm_of_strict {α : Type} (key : α → Nat) :
    ∀ (l₁ l₂ : List α), l₁.Perm l₂ → l₁.Pairwise (fun a b => key a < key b) →
      l₂.Pairwise (fun a b => key a < key b) → l₁ = l₂
  | [], l₂, hp, _, _ => by simpa using hp.symm.eq_nil
  | x :: xs, [], hp, _, _ => by simpa using hp.eq_nil
  | x :: xs, y :: ys, hp, h₁, h₂ => by
    rw [List.pairwise_cons] at h₁ h₂
    have hx : x ∈ y :: ys := hp.subset (List.mem_cons_self _ _)
    have hy : y ∈ x :: xs := hp.symm.subset (List.mem_cons_self _ _)
    have hxy : x = y := by
      rcases List.mem_cons.1 hx with h | h
      · exact h
      · rcases List.mem_cons.1 hy with h' | h'
        · exact h'.symm
        · have := h₁.1 y h'; have := h₂.1 x h; omega
    subst hxy
    rw [eq_of_perm_of_strict key xs ys ((List.perm_cons x).1 hp) h₁.2 h₂.2]

/-- A sorted permutation of a list with pairwise distinct keys is strictly ascending. -/
theorem strict_of_sorted_of_distinct {α : Type} (key : α → Nat) (l : List α)
    (hs : l.Pairwise (fun a b => key a ≤ key b)) (hd : l.Pairwise (fun a b => key a ≠ key b)) :
    l.Pairwise (fun a b => key a < key b) := by
  have := hs.and hd
  exact this.imp (fun h => by omega)

/-- Sorting any arrival order of rows that are strictly ascending in a key
gives back the ascending list. -/
theorem sortSlice_of_perm_strict {α : Type} (key : α → Nat) (rows results : List α)
    (hp : results.Perm rows) (hs : rows.Pairwise (fun a b => key a < key b)) :
    sortSlice (fun a b => decide (key a < key b)) results = rows := by
  have hperm : (sortSlice (fun a b => decide (key a < key b)) results).Perm rows :=
    (sortSlice_perm _ results).trans hp
  have hd : rows.Pairwise (fun a b => key a ≠ key b) := hs.imp (fun h => by omega)
  have hd' := (hperm.pairwise_iff (fun {a b} (h : key a ≠ key b) => Ne.symm h)).2 hd
  exact eq_of_perm_of_strict key _ _ hperm
    (strict_of_sorted_of_distinct key _ (sortSlice_sorted key results) hd') hs

/-! ## Masks -/

theorem and_block_mask (x k : Nat) (hk : k ≤ 32) (hx : x < u32) :
    x &&& (u32 - 2 ^ k) = x / 2 ^ k * 2 ^ k := by
  have hm : u32 - 2 ^ k = (2 ^ (32 - k) - 1) <<< k := by
    rw [Nat.shiftLeft_eq, Nat.sub_mul, ← Nat.pow_add, Nat.sub_add_cancel hk, Nat.one_mul]
    rfl
  have hr : x / 2 ^ k * 2 ^ k = (x >>> k) <<< k := by
    rw [Nat.shiftLeft_eq, Nat.shiftRight_eq_div_pow]
  rw [hm, hr]
  apply Nat.eq_of_testBit_eq
  intro j
  rw [Nat.testBit_and, Nat.testBit_shiftLeft, Nat.testBit_shiftLeft, Nat.testBit_shiftRight,
    Nat.testBit_two_pow_sub_one]
  by_cases hj : k ≤ j
  · have e : k + (j - k) = j := by omega
    rw [e]
    by_cases h32 : j < 32
    · have : j - k < 32 - k := by omega
      simp [hj, this]
    · have hx' : x < 2 ^ j := lt_of_lt_of_le hx (by
        have : (2:Nat) ^ 32 ≤ 2 ^ j := Nat.pow_le_pow_right (by norm_num) (by omega)
        simpa [u32] using this)
      simp [Nat.testBit_lt_two_pow hx']
  · simp [hj]

/-- Membership in a prefix range is agreement on the leading bits. -/
theorem contains_iff_div (r : IPRange) (k ip : Nat) (hk : k ≤ 32) (hm : r.Mask = u32 - 2 ^ k)
    (hb : r.IPMasked = r.IP &&& r.Mask) (hr : r.IP < u32) (hip : ip < u32) :
    r.Contains ip = true ↔ ip / 2 ^ k = r.IP / 2 ^ k := by
  unfold IPRange.Contains
  rw [hb, hm, and_block_mask _ k hk hr, and_block_mask _ k hk hip]
  simp only [beq_iff_eq]
  have hpos : 0 < 2 ^ k := Nat.pow_pos (by norm_num)
  constructor
  · intro h; exact (Nat.eq_of_mul_eq_mul_right hpos h).symm
  · intro h; rw [h]

/-- A prefix range contains its own base. -/
theorem contains_base (r : IPRange) (h : r.IsBlock) : r.Contains r.IP = true := by
  obtain ⟨hr, ⟨k, hk, hm⟩, hb⟩ := h
  exact (contains_iff_div r k r.IP hk hm hb hr hr).2 rfl

/-- A prefix range is an interval: it contains every address between two of
its members. -/
theorem contains_between (r : IPRange) (h : r.IsBlock) (x y z : Nat) (hz : z < u32)
    (hxy : x ≤ y) (hyz : y ≤ z) (hx : r.Contains x = true) (hzc : r.Contains z = true) :
    r.Contains y = true := by
  obtain ⟨hr, ⟨k, hk, hm⟩, hb⟩ := h
  have hy : y < u32 := lt_of_le_of_lt hyz hz
  have hx' : x < u32 := lt_of_le_of_lt hxy hy
  rw [contains_iff_div r k _ hk hm hb hr hx'] at hx
  rw [contains_iff_div r k _ hk hm hb hr hz] at hzc
  rw [contains_iff_div r k _ hk hm hb hr hy]
  have h1 : x / 2 ^ k ≤ y / 2 ^ k := Nat.div_le_div_right hxy
  have h2 : y / 2 ^ k ≤ z / 2 ^ k := Nat.div_le_div_right hyz
  omega

/-! ## Bisection -/

/-- The search never runs out of budget and never indexes outside the table. -/
theorem searchLoop_total (ip : Nat) (t : List IPRange) :
    ∀ (fuel min max : Nat), max ≤ t.length → max - min < fuel →
      ∃ b, searchLoop ip t fuel min max = .ok b := by
  intro fuel
  induction fuel with
  | zero => intro min max _ h; omega
  | succ fuel ih =>
    intro min max hmax hf
    unfold searchLoop
    by_cases hlt : min < max
    · simp only [hlt, if_true]
      have hmed : (min + max) / 2 < t.length := by omega
      rw [List.getElem?_eq_getElem hmed]
      simp only
      split
      · exact ⟨true, rfl⟩
      · split
        · exact ih _ _ (by omega) (by omega)
        · exact ih _ _ hmax (by omega)
    · simp only [hlt, if_false]
      exact ⟨false, rfl⟩

theorem searchIPInNetworks_total (ip : Nat) (t : List IPRange) :
    ∃ b, searchIPInNetworks ip t = .ok b :=
  searchLoop_total ip t _ 0 _ (le_refl _) (by omega)

/-- A positive answer of the search names a range of the table. -/
theorem searchLoop_sound (ip : Nat) (t : List IPRange) :
    ∀ (fuel min max : Nat), searchLoop ip t fuel min max = .ok true →
      ∃ r ∈ t, r.Contains ip = true := by
  intro fuel
  induction fuel with
  | zero => intro min max h; simp [searchLoop] at h
  | succ fuel ih =>
    intro min max h
    unfold searchLoop at h
    by_cases hlt : min < max
    · simp only [hlt, if_true] at h
      cases hg : t[(min + max) / 2]? with
      | none => simp [hg] at h
      | some r =>
        simp only [hg] at h
        by_cases hc : r.Contains ip = true
        · exact ⟨r, List.mem_iff_getElem?.2 ⟨_, hg⟩, hc⟩
        · simp only [hc, Bool.false_eq_true, if_false] at h
          by_cases hcmp : ip < r.IP
          · simp only [hcmp, if_true] at h; exact ih _ _ h
          · simp only [hcmp, if_false] at h; exact ih _ _ h
    · simp [hlt] at h

/-- Under the precondition, a range containing the address stays inside the
search interval, so the search finds it. -/
theorem searchLoop_complete (ip : Nat) (t : List IPRange) (ht : TableOK t) (hip : ip < u32) :
    ∀ (fuel min max : Nat), max ≤ t.length → max - min < fuel →
      (∃ j, min ≤ j ∧ j < max ∧ ∃ r, t[j]? = some r ∧ r.Contains ip = true) →
      searchLoop ip t fuel min max = .ok true := by
  obtain ⟨hpre, hsorted, hdis⟩ := ht
  intro fuel
  induction fuel with
  | zero => intro min max _ h; omega
  | succ fuel ih =>
    intro min max hmax hf ⟨j, hj1, hj2, r, hjr, hrc⟩
    unfold searchLoop
    have hlt : min < max := by omega
    simp only [hlt, if_true]
    have hmed : (min + max) / 2 < t.length := by omega
    rw [List.getElem?_eq_getElem hmed]
    simp only
    set m := (min + max) / 2 with hmdef
    by_cases hc : (t[m]).Contains ip = true
    · simp [hc]
    · simp only [hc]
      have hjlen : j < t.length := by omega
      have hrj : r = t[j] := by
        rw [List.getElem?_eq_getElem hjlen] at hjr
        exact (Option.some.inj hjr).symm
      have hjm : j ≠ m := by
        intro e; subst e; rw [hrj] at hrc; exact hc hrc
      have hmP : (t[m]).IsBlock := hpre _ (List.getElem_mem _)
      have hrP : r.IsBlock := by rw [hrj]; exact hpre _ (List.getElem_mem _)
      have hmb := contains_base _ hmP
      have hrb := contains_base _ hrP
      by_cases hcmp : ip < (t[m]).IP
      · simp only [hcmp, if_true]
        refine ih _ _ (by omega) (by omega) ⟨j, hj1, ?_, r, hjr, hrc⟩
        by_contra hnot
        have hmj : m < j := by omega
        have hle : (t[m]).IP ≤ (t[j]).IP := List.pairwise_iff_getElem.1 hsorted m j hmed hjlen hmj
        have hno : ¬ Overlap (t[m]) (t[j]) := List.pairwise_iff_getElem.1 hdis m j hmed hjlen hmj
        apply hno
        refine ⟨(t[m]).IP, hmP.1, hmb, ?_⟩
        rw [← hrj]
        exact contains_between r hrP ip _ r.IP hrP.1 (le_of_lt hcmp) (by rw [hrj]; exact hle) hrc hrb
      · simp only [hcmp, if_false]
        refine ih _ _ hmax (by omega) ⟨j, ?_, hj2, r, hjr, hrc⟩
        by_contra hnot
        have hmj : j < m := by omega
        have hle : (t[j]).IP ≤ (t[m]).IP := List.pairwise_iff_getElem.1 hsorted j m hjlen hmed hmj
        have hno : ¬ Overlap (t[j]) (t[m]) := List.pairwise_iff_getElem.1 hdis j m hjlen hmed hmj
        apply hno
        refine ⟨(t[m]).IP, hmP.1, ?_, hmb⟩
        rw [← hrj]
        exact contains_between r hrP r.IP _ ip hip (by rw [hrj]; exact hle) (by omega) hrb hrc

/-- Under the precondition the bisection agrees with a linear scan. -/
theorem search_eq_linearScan (ip : Nat) (t : List IPRange) (ht : TableOK t) (hip : ip < u32) :
    searchIPInNetworks ip t = .ok (linearScan ip t) := by
  obtain ⟨b, hb⟩ := searchIPInNetworks_total ip t
  rw [hb]
  congr 1
  cases hls : linearScan ip t with
  | true =>
    unfold linearScan at hls
    rw [List.any_eq_true] at hls
    obtain ⟨r, hr, hrc⟩ := hls
    obtain ⟨j, hj, hjr⟩ := List.getElem_of_mem hr
    have := searchLoop_complete ip t ht hip (t.length + 1) 0 t.length (le_refl _) (by omega)
      ⟨j, Nat.zero_le _, hj, r, by rw [List.getElem?_eq_getElem hj, hjr], hrc⟩
    unfold searchIPInNetworks at hb
    rw [this] at hb
    exact (Res.ok.inj hb).symm
  | false =>
    cases b with
    | false => rfl
    | true =>
      obtain ⟨r, hr, hrc⟩ := searchLoop_sound ip t _ _ _ hb
      have : linearScan ip t = true := by
        unfold linearScan
        exact List.any_eq_true.2 ⟨r, hr, hrc⟩
      rw [hls] at this
      exact absurd this (by simp)

/-! ## Parsing of addresses and specs -/

theorem parseIPLoop_digits (rest : List Nat) :
    ∀ (ds : List Nat) (i ip oct shift n : Nat), (∀ c ∈ ds, 48 ≤ c ∧ c ≤ 57) →
      parseIPLoop (ds ++ rest) i ip oct shift n =
        parseIPLoop rest (i + ds.length) ip (foldDigits oct ds) shift
          (if ds = [] then n else i + ds.length - 1) := by
  intro ds
  induction ds with
  | nil => intro i ip oct shift n _; simp [foldDigits]
  | cons c cs ih =>
    intro i ip oct shift n h
    have hc := h c (List.mem_cons_self _ _)
    have hne : c ≠ 46 := by omega
    rw [List.cons_append, parseIPLoop]
    simp only [hne, if_false, hc, and_self, if_true]
    rw [ih (i + 1) ip _ shift i (fun x hx => h x (List.mem_cons_of_mem _ hx))]
    simp only [foldDigits, List.foldl_cons, List.length_cons]
    have e1 : i + 1 + cs.length = i + (cs.length + 1) := by omega
    rw [e1]
    congr 1
    by_cases hcs : cs = []
    · subst hcs; simp
    · have : 0 < cs.length := List.length_pos.2 hcs
      simp only [hcs, if_false]
      simp

theorem decimal_octet : ∀ a, a ≤ 255 →
    (decimal a ≠ [] ∧ (∀ c ∈ decimal a, 48 ≤ c ∧ c ≤ 57)) ∧ foldDigits 0 (decimal a) = a := by
  decide!

theorem parseIPLoop_octet (a : Nat) (ha : a ≤ 255) (rest : List Byte) (i ip shift n : Nat) :
    parseIPLoop (decimal a ++ rest) i ip 0 shift n =
      parseIPLoop rest (i + (decimal a).length) ip a shift (i + (decimal a).length - 1) := by
  obtain ⟨⟨hne, hd⟩, hv⟩ := decimal_octet a ha
  rw [parseIPLoop_digits rest _ i ip 0 shift n hd, hv]
  simp [hne]

theorem parseIP_spec (s : Spec) (h : s.WF) (tail : List Byte) :
    parseIP (decimal s.a ++ 46 :: (decimal s.b ++ 46 :: (decimal s.c ++ 46 ::
        (decimal s.d ++ 47 :: tail)))) =
      (s.addr, (decimal s.a).length + 1 + (decimal s.b).length + 1 + (decimal s.c).length + 1 +
        (decimal s.d).length) := by
  obtain ⟨ha, hb, hc, hd, _⟩ := h
  have lapos : 0 < (decimal s.a).length := List.length_pos.2 (decimal_octet _ ha).1.1
  unfold parseIP
  rw [parseIPLoop_octet _ ha]
  rw [parseIPLoop]
  simp only [if_true]
  rw [parseIPLoop_octet _ hb]
  rw [parseIPLoop]
  simp only [if_true]
  rw [parseIPLoop_octet _ hc]
  rw [parseIPLoop]
  simp only [if_true]
  rw [parseIPLoop_octet _ hd]
  rw [parseIPLoop]
  simp only [show ¬ (47 : Nat) = 46 by decide, if_false, show ¬ (48 ≤ 47 ∧ 47 ≤ 57) by decide]
  simp only [shl32, u32, Nat.shiftLeft_eq, Spec.addr]
  norm_num
  split <;> omega

theorem parseUint_small : ∀ n, n ≤ 32 →
    parseUint (decimal n) = (n, false) ∧
      shl32 4294967295 ((32 + u64 - n) % u64) = u32 - 2 ^ (32 - n) := by
  decide!

theorem Spec.text_eq (s : Spec) :
    s.text = (decimal s.a ++ 46 :: (decimal s.b ++ 46 :: (decimal s.c ++ 46 :: decimal s.d))) ++
      47 :: decimal s.n := by
  have h1 : ascii "." = [46] := rfl
  have h2 : ascii "/" = [47] := rfl
  simp [Spec.text, h1, h2]

/-- The range that `parseNetworksMy` builds from a well-formed spec. -/
theorem parseNetwork_spec (s : Spec) (h : s.WF) :
    parseNetwork s.text =
      .ok { IP := s.addr, Mask := u32 - 2 ^ (32 - s.n),
            IPMasked := s.addr &&& (u32 - 2 ^ (32 - s.n)) } := by
  have hip := parseIP_spec s h (decimal s.n)
  have htext := Spec.text_eq s
  have hlen : (decimal s.a ++ 46 :: (decimal s.b ++ 46 :: (decimal s.c ++ 46 :: decimal s.d))).length
      = (decimal s.a).length + 1 + (decimal s.b).length + 1 + (decimal s.c).length + 1 +
        (decimal s.d).length := by
    simp only [List.length_append, List.length_cons]; omega
  have hip' : parseIP s.text = (s.addr, (decimal s.a ++ 46 :: (decimal s.b ++ 46 ::
      (decimal s.c ++ 46 :: decimal s.d))).length) := by
    rw [hlen, ← hip, htext]
    simp
  unfold parseNetwork
  rw [hip']
  simp only
  have hle : (decimal s.a ++ 46 :: (decimal s.b ++ 46 :: (decimal s.c ++ 46 :: decimal s.d))).length
      + 1 ≤ s.text.length := by
    rw [htext]; simp only [List.length_append, List.length_cons]; omega
  rw [if_pos hle]
  have hdrop : s.text.drop ((decimal s.a ++ 46 :: (decimal s.b ++ 46 ::
      (decimal s.c ++ 46 :: decimal s.d))).length + 1) = decimal s.n := by
    rw [htext, List.drop_append]; rfl
  rw [hdrop, (parseUint_small s.n h.2.2.2.2).1]
  simp only [(parseUint_small s.n h.2.2.2.2).2]

theorem Spec.addr_lt (s : Spec) (h : s.WF) : s.addr < u32 := by
  obtain ⟨ha, hb, hc, hd, _⟩ := h
  simp only [Spec.addr, u32]
  norm_num
  omega

theorem Spec.range_block (s : Spec) (h : s.WF) : s.range.IsBlock :=
  ⟨Spec.addr_lt s h, ⟨32 - s.n, by omega, rfl⟩, rfl⟩

theorem parseNetworksLoop_specs (specs : List Spec) (h : ∀ s ∈ specs, s.WF) :
    parseNetworksLoop (specs.map Spec.text) = .ok (specs.map Spec.range) := by
  induction specs with
  | nil => rfl
  | cons s ss ih =>
    have hs := parseNetwork_spec s (h s (List.mem_cons_self _ _))
    have hss := ih (fun x hx => h x (List.mem_cons_of_mem _ hx))
    simp only [List.map_cons, parseNetworksLoop, hs, hss]
    rfl

theorem overlap_symm (r s : IPRange) (h : Overlap r s) : Overlap s r := by
  obtain ⟨ip, hip, hr, hs⟩ := h
  exact ⟨ip, hip, hs, hr⟩

/-- The table built from well-formed specs whose ranges do not overlap meets
the precondition of the bisection. -/
theorem parseNetworksMy_specs (specs : List Spec) (h : ∀ s ∈ specs, s.WF)
    (hdis : (specs.map Spec.range).Pairwise (fun r s => ¬ Overlap r s)) :
    ∃ t, parseNetworksMy (specs.map Spec.text) = .ok t ∧ TableOK t ∧
      t.Perm (specs.map Spec.range) := by
  have hperm := sortSlice_perm (fun a b : IPRange => decide (a.IP < b.IP)) (specs.map Spec.range)
  refine ⟨sortSlice (fun a b => decide (a.IP < b.IP)) (specs.map Spec.range), ?_, ⟨?_, ?_, ?_⟩,
    hperm⟩
  · simp only [parseNetworksMy, parseNetworksLoop_specs specs h]
  · intro r hr
    obtain ⟨s, hs, rfl⟩ := List.mem_map.1 (hperm.subset hr)
    exact Spec.range_block s (h s hs)
  · exact sortSlice_sorted (fun r : IPRange => r.IP) _
  · exact (hperm.pairwise_iff (fun {a b} (hab : ¬ Overlap a b) hba =>
      hab (overlap_symm b a hba))).2 hdis

/-! ## Failure of `parseNetworksMy` -/

theorem parseIPLoop_index_lt : ∀ (l : List Nat) (i ip oct shift n : Nat), n < i + l.length →
    (parseIPLoop l i ip oct shift n).2.2 < i + l.length := by
  intro l
  induction l with
  | nil => intro i ip oct shift n h; simpa [parseIPLoop] using h
  | cons c cs ih =>
    intro i ip oct shift n _
    rw [parseIPLoop]
    simp only [List.length_cons]
    split
    · have := ih (i + 1) ((ip + shl32 oct shift) % u32) 0 ((shift + u32 - 8) % u32) i (by omega)
      omega
    · split
      · have := ih (i + 1) ip ((oct * 10 + (c - 48)) % u32) shift i (by omega)
        omega
      · simp only; omega

theorem parseIP_index_lt (n : List Nat) (hne : n ≠ []) : (parseIP n).2 + 1 ≤ n.length := by
  have hpos : 0 < n.length := List.length_pos.2 hne
  have hlt := parseIPLoop_index_lt n 0 0 0 24 0 (by omega)
  have e : (parseIP n).2 = (parseIPLoop n 0 0 0 24 0).2.2 := rfl
  rw [e]
  omega

theorem parseNetwork_eq (n : List Nat) :
    parseNetwork n =
      if (parseIP n).2 + 1 ≤ n.length then
        .ok { IP := (parseIP n).1,
              Mask := shl32 4294967295 ((32 + u64 - (parseUint (n.drop ((parseIP n).2 + 1))).1) % u64),
              IPMasked := (parseIP n).1 &&&
                shl32 4294967295 ((32 + u64 - (parseUint (n.drop ((parseIP n).2 + 1))).1) % u64) }
      else .panic := rfl

theorem parseNetwork_panic_iff (n : List Nat) : parseNetwork n = .panic ↔ n = [] := by
  constructor
  · intro h
    by_contra hne
    rw [parseNetwork_eq, if_pos (parseIP_index_lt n hne)] at h
    exact absurd h (by simp)
  · intro h
    subst h
    rfl

theorem parseNetwork_ne_fuel (n : List Nat) : parseNetwork n ≠ .fuel := by
  rw [parseNetwork_eq]
  split <;> simp

theorem parseNetworksLoop_ok_iff (specs : List (List Nat)) :
    (∃ rs, parseNetworksLoop specs = .ok rs) ↔ [] ∉ specs := by
  induction specs with
  | nil => simp [parseNetworksLoop]
  | cons n ns ih =>
    rw [parseNetworksLoop]
    cases hn : parseNetwork n with
    | fuel => exact absurd hn (parseNetwork_ne_fuel n)
    | panic =>
      have := (parseNetwork_panic_iff n).1 hn
      subst this
      simp
    | ok r =>
      have hne : n ≠ [] := by
        intro e
        rw [(parseNetwork_panic_iff n).2 e] at hn
        exact absurd hn (by simp)
      simp only [List.mem_cons, not_or]
      rw [← ih]
      constructor
      · rintro ⟨rs, hrs⟩
        refine ⟨fun e => hne e.symm, ?_⟩
        cases hl : parseNetworksLoop ns with
        | ok rs' => exact ⟨rs', rfl⟩
        | panic => rw [hl] at hrs; simp at hrs
        | fuel => rw [hl] at hrs; simp at hrs
      · rintro ⟨_, rs, hrs⟩
        exact ⟨r :: rs, by rw [hrs]⟩

theorem parseNetworksLoop_ne_fuel (specs : List (List Nat)) : parseNetworksLoop specs ≠ .fuel := by
  induction specs with
  | nil => simp [parseNetworksLoop]
  | cons n ns ih =>
    rw [parseNetworksLoop]
    cases hn : parseNetwork n with
    | fuel => exact absurd hn (parseNetwork_ne_fuel n)
    | panic => simp
    | ok r =>
      simp only
      cases hl : parseNetworksLoop ns with
      | ok rs => simp
      | panic => simp
      | fuel => exact absurd hl ih

/-! ## Threshold evaluator -/

theorem parseIPLoop_lt : ∀ (l : List Nat) (i ip oct shift n : Nat), ip < u32 →
    (parseIPLoop l i ip oct shift n).1 < u32 := by
  intro l
  induction l with
  | nil => intro i ip oct shift n h; simpa [parseIPLoop] using h
  | cons c cs ih =>
    intro i ip oct shift n h
    rw [parseIPLoop]
    split
    · exact ih _ _ _ _ _ (Nat.mod_lt _ (by decide))
    · split
      · exact ih _ _ _ _ _ h
      · exact h

theorem parseIP_lt (s : List Nat) : (parseIP s).1 < u32 := by
  have h := parseIPLoop_lt s 0 0 0 24 0 (by decide)
  have e : (parseIP s).1 = if (parseIPLoop s 0 0 0 24 0).2.1 > 0
      then ((parseIPLoop s 0 0 0 24 0).1 + (parseIPLoop s 0 0 0 24 0).2.1) % u32
      else (parseIPLoop s 0 0 0 24 0).1 := rfl
  rw [e]
  split
  · exact Nat.mod_lt _ (by decide)
  · exact h

/-- Counting hits up to the threshold decides the same as counting them all. -/
theorem countHits_spec (t : List IPRange) : ∀ (hits : List (List Nat)) (cnt : Nat),
    ∃ c, countHits t hits cnt = .ok c ∧
      (hitsThresh ≤ c ↔ hitsThresh ≤ cnt + hits.countP fun h =>
        decide (searchIPInNetworks (parseIP h).1 t = .ok true)) := by
  intro hits
  induction hits with
  | nil => intro cnt; exact ⟨cnt, rfl, by simp⟩
  | cons h rest ih =>
    intro cnt
    rw [countHits, List.countP_cons]
    obtain ⟨b, hb⟩ := searchIPInNetworks_total (parseIP h).1 t
    rw [hb]
    cases b with
    | true =>
      simp only [decide_True, if_true]
      by_cases hth : cnt + 1 ≥ hitsThresh
      · rw [if_pos hth]
        exact ⟨cnt + 1, rfl, by constructor <;> intro _ <;> omega⟩
      · rw [if_neg hth]
        obtain ⟨c, hc, hiff⟩ := ih (cnt + 1)
        exact ⟨c, hc, by rw [hiff]; constructor <;> intro _ <;> omega⟩
    | false =>
      have : decide (Res.ok false = Res.ok true) = false := by decide
      simp only [this]
      obtain ⟨c, hc, hiff⟩ := ih cnt
      exact ⟨c, hc, by simpa using hiff⟩

/-- Counting browsers up to the threshold decides the same as counting them all. -/
theorem countBrowsers_spec : ∀ (browsers : List (List Nat)) (cnt : Nat),
    (browsersThresh ≤ countBrowsers browsers cnt ↔
      browsersThresh ≤ cnt + browsers.countP userAgentMatch) := by
  intro browsers
  induction browsers with
  | nil => intro cnt; simp [countBrowsers]
  | cons b rest ih =>
    intro cnt
    rw [countBrowsers, List.countP_cons]
    cases hm : userAgentMatch b with
    | false => simpa using ih cnt
    | true =>
      simp only [Bool.not_true, Bool.false_eq_true, if_false, if_true]
      by_cases hth : cnt + 1 ≥ browsersThresh
      · rw [if_pos hth]; constructor <;> intro _ <;> omega
      · rw [if_neg hth, ih]; constructor <;> intro _ <;> omega

/-- The evaluator, started with fresh counters, appends the formatted row
exactly for the records that pass the reference decision. -/
theorem evalRecord_fresh (t : List IPRange) (userId : Nat) (inp : InMy) :
    ∃ h b, evalRecord t userId 0 0 inp =
      .ok (h, b, if passesRef t inp then some (formatRow userId inp) else none) := by
  obtain ⟨c, hc, hiff⟩ := countHits_spec t inp.Hits 0
  have hb := countBrowsers_spec inp.Browsers 0
  simp only [Nat.zero_add] at hiff hb
  unfold evalRecord
  rw [hc]
  simp only [Res.bind]
  by_cases h1 : c < hitsThresh
  · rw [if_pos h1]
    refine ⟨c, 0, ?_⟩
    have : ¬ hitsThresh ≤ c := by omega
    rw [hiff] at this
    simp [passesRef, this]
  · rw [if_neg h1]
    have h1' : hitsThresh ≤ c := by omega
    rw [hiff] at h1'
    by_cases h2 : countBrowsers inp.Browsers 0 < browsersThresh
    · simp only [h2, if_true]
      refine ⟨c, countBrowsers inp.Browsers 0, ?_⟩
      have : ¬ browsersThresh ≤ countBrowsers inp.Browsers 0 := by omega
      rw [hb] at this
      simp [passesRef, this]
    · simp only [h2, if_false]
      refine ⟨c, countBrowsers inp.Browsers 0, ?_⟩
      have : browsersThresh ≤ countBrowsers inp.Browsers 0 := by omega
      rw [hb] at this
      simp [passesRef, this, h1']

/-- On a table that meets the precondition the reference decision counts
the hits that lie in some range. -/
theorem passesRef_of_tableOK (t : List IPRange) (ht : TableOK t) (inp : InMy) :
    passesRef t inp = (decide (hitsThresh ≤ inp.Hits.countP fun h => linearScan (parseIP h).1 t) &&
      decide (browsersThresh ≤ inp.Browsers.countP userAgentMatch)) := by
  unfold passesRef
  have e : (fun h => decide (searchIPInNetworks (parseIP h).1 t = Res.ok true)) =
      fun h => linearScan (parseIP h).1 t := by
    funext h
    rw [search_eq_linearScan _ t ht (parseIP_lt h)]
    cases linearScan (parseIP h).1 t <;> decide
  rw [e]

/-! ## Record scanner -/

theorem indexByte_append (b : Nat) (s rest : List Nat) (h : b ∉ s) :
    indexByte b (s ++ b :: rest) = some s.length := by
  induction s with
  | nil => simp [indexByte]
  | cons c cs ih =>
    have hc : c ≠ b := fun e => h (by simp [e])
    have hcs : b ∉ cs := fun e => h (List.mem_cons_of_mem _ e)
    simp [indexByte, hc, ih hcs]

theorem fetchString_quote (s rest : List Nat) (h : 34 ∉ s) :
    fetchString (quote s ++ rest) = .ok (s, rest) := by
  have e : quote s ++ rest = 34 :: (s ++ 34 :: rest) := by simp [quote]
  rw [e]
  simp only [fetchString, checkCh, if_true, Res.bind, indexByte_append 34 s rest h]
  simp

theorem renderStrings_length (l : List (List Nat)) : l.length ≤ (renderStrings l).length := by
  induction l with
  | nil => simp [renderStrings]
  | cons s t ih =>
    cases t with
    | nil => simp [renderStrings, quote]
    | cons u r =>
      simp only [renderStrings, List.length_append, List.length_cons] at ih ⊢
      omega

theorem fetchSliceLoop_render (rest : List Nat) :
    ∀ (l : List (List Nat)) (acc : List (List Nat)) (fuel : Nat), l ≠ [] →
      (∀ s ∈ l, 34 ∉ s) → l.length ≤ fuel →
      fetchSliceLoop fuel acc (renderStrings l ++ 93 :: rest) = .ok (acc ++ l, rest) := by
  intro l
  induction l with
  | nil => intro acc fuel h; exact absurd rfl h
  | cons s t ih =>
    intro acc fuel _ hq hf
    have hs : 34 ∉ s := hq s (List.mem_cons_self _ _)
    cases fuel with
    | zero => simp at hf
    | succ fuel =>
      cases t with
      | nil =>
        simp only [renderStrings, fetchSliceLoop, fetchString_quote s _ hs, Res.bind, getCh]
        simp
      | cons u r =>
        have e : renderStrings (s :: u :: r) ++ 93 :: rest =
            quote s ++ 44 :: (renderStrings (u :: r) ++ 93 :: rest) := by
          simp [renderStrings]
        rw [e]
        simp only [fetchSliceLoop, fetchString_quote s _ hs, Res.bind, getCh]
        simp only [show ¬ (44 : Nat) = 93 by decide, if_false, if_true]
        rw [ih (acc ++ [s]) fuel (by simp) (fun x hx => hq x (List.mem_cons_of_mem _ hx))
          (by simpa using hf)]
        simp

theorem fetchSliceOfStrings_render (l : List (List Nat)) (rest : List Nat) (hne : l ≠ [])
    (hq : ∀ s ∈ l, 34 ∉ s) :
    fetchSliceOfStrings ((FieldVal.arr l).render ++ rest) = .ok (l, rest) := by
  have e : (FieldVal.arr l).render ++ rest = 91 :: (renderStrings l ++ 93 :: rest) := by
    simp [FieldVal.render]
  rw [e]
  simp only [fetchSliceOfStrings, checkCh, if_true, Res.bind]
  have := fetchSliceLoop_render rest l [] ((renderStrings l ++ 93 :: rest).length + 1) hne hq (by
    have := renderStrings_length l
    simp only [List.length_append, List.length_cons]; omega)
  simpa using this

theorem ascii_names :
    ascii "browsers" = [98, 114, 111, 119, 115, 101, 114, 115] ∧
    ascii "company" = [99, 111, 109, 112, 97, 110, 121] ∧
    ascii "country" = [99, 111, 117, 110, 116, 114, 121] ∧
    ascii "email" = [101, 109, 97, 105, 108] ∧
    ascii "hits" = [104, 105, 116, 115] ∧
    ascii "job" = [106, 111, 98] ∧
    ascii "name" = [110, 97, 109, 101] ∧
    ascii "phone" = [112, 104, 111, 110, 101] := by
  decide

/-- Scanning the value of a schema field stores it as `updField` says. -/
theorem scanSection_schema {browsers hits : List (List Nat)}
    {name email company country job phone : List Nat}
    (hq : QuoteFree browsers hits name email company country job phone)
    (f : List Nat × FieldVal)
    (hf : f ∈ schemaFields browsers hits name email company country job phone)
    (inp : InMy) (rest : List Nat) :
    34 ∉ f.1 ∧
      scanSection JsonPiper.init f.1 inp (f.2.render ++ rest) = .ok (updField inp f, rest) := by
  obtain ⟨hb, hh, hbq, hhq, hn, he, hco, hcu, hj, hp⟩ := hq
  obtain ⟨n1, n2, n3, n4, n5, n6, n7, n8⟩ := ascii_names
  simp only [schemaFields, List.mem_cons, List.mem_singleton, List.not_mem_nil, or_false] at hf
  rcases hf with rfl | rfl | rfl | rfl | rfl | rfl | rfl | rfl
  · refine ⟨by simp [n1], ?_⟩
    simp only [scanSection, JsonPiper.init, updField, if_true,
      fetchSliceOfStrings_render browsers rest hb hbq, Res.bind]
  · refine ⟨by simp [n2], ?_⟩
    simp only [scanSection, JsonPiper.init, updField, n1, n2, n3, n4, n5, n6, n7, n8,
      FieldVal.render, fetchString_quote _ rest hco, Res.bind]
    simp
  · refine ⟨by simp [n3], ?_⟩
    simp only [scanSection, JsonPiper.init, updField, n1, n2, n3, n4, n5, n6, n7, n8,
      FieldVal.render, fetchString_quote _ rest hcu, Res.bind]
    simp
  · refine ⟨by simp [n4], ?_⟩
    simp only [scanSection, JsonPiper.init, updField, n1, n2, n3, n4, n5, n6, n7, n8,
      FieldVal.render, fetchString_quote _ rest he, Res.bind]
    simp
  · refine ⟨by simp [n5], ?_⟩
    simp only [scanSection, JsonPiper.init, updField, n1, n2, n3, n4, n5, n6, n7, n8,
      fetchSliceOfStrings_render hits rest hh hhq, Res.bind]
    simp
  · refine ⟨by simp [n6], ?_⟩
    simp only [scanSection, JsonPiper.init, updField, n1, n2, n3, n4, n5, n6, n7, n8,
      FieldVal.render, fetchString_quote _ rest hj, Res.bind]
    simp
  · refine ⟨by simp [n7], ?_⟩
    simp only [scanSection, JsonPiper.init, updField, n1, n2, n3, n4, n5, n6, n7, n8,
      FieldVal.render, fetchString_quote _ rest hn, Res.bind]
    simp
  · refine ⟨by simp [n8], ?_⟩
    simp only [scanSection, JsonPiper.init, updField, n1, n2, n3, n4, n5, n6, n7, n8,
      FieldVal.render, fetchString_quote _ rest hp, Res.bind]
    simp

theorem renderFields_length (fs : List (List Nat × FieldVal)) :
    fs.length ≤ (renderFields fs).length := by
  induction fs with
  | nil => simp [renderFields]
  | cons f t ih =>
    cases t with
    | nil => simp [renderFields, renderField, quote]
    | cons u r =>
      simp only [renderFields, List.length_append, List.length_cons] at ih ⊢
      omega

/-- The scanner loop over the text of schema fields: every field is stored,
and the closing brace ends the call with `true`. -/
theorem scanLoop_fields {browsers hits : List (List Nat)}
    {name email company country job phone : List Nat}
    (hq : QuoteFree browsers hits name email company country job phone) (rest : List Nat) :
    ∀ (fs : List (List Nat × FieldVal)) (inp : InMy) (fuel : Nat), fs ≠ [] →
      (∀ f ∈ fs, f ∈ schemaFields browsers hits name email company country job phone) →
      fs.length ≤ fuel →
      scanLoop JsonPiper.init fuel inp (renderFields fs ++ 125 :: rest) =
        .ok (true, fs.foldl updField inp, rest) := by
  intro fs
  induction fs with
  | nil => intro inp fuel h; exact absurd rfl h
  | cons f t ih =>
    intro inp fuel _ hmem hf
    have hname := (scanSection_schema hq f (hmem f (List.mem_cons_self _ _)) inp []).1
    have hsec := fun r => (scanSection_schema hq f (hmem f (List.mem_cons_self _ _)) inp r).2
    cases fuel with
    | zero => simp at hf
    | succ fuel =>
      cases t with
      | nil =>
        have e : renderFields [f] ++ 125 :: rest =
            quote f.1 ++ 58 :: (f.2.render ++ 125 :: rest) := by
          simp [renderFields, renderField]
        rw [e, scanLoop]
        have hne : (quote f.1 ++ 58 :: (f.2.render ++ 125 :: rest)).isEmpty = false := by
          simp [quote]
        simp only [hne, Bool.false_eq_true, if_false, fetchString_quote _ _ hname, Res.bind,
          checkCh, if_true, hsec, getCh]
        simp
      | cons u r =>
        have e : renderFields (f :: u :: r) ++ 125 :: rest =
            quote f.1 ++ 58 :: (f.2.render ++ 44 :: (renderFields (u :: r) ++ 125 :: rest)) := by
          simp [renderFields, renderField]
        rw [e, scanLoop]
        have hne : (quote f.1 ++ 58 :: (f.2.render ++ 44 ::
            (renderFields (u :: r) ++ 125 :: rest))).isEmpty = false := by
          simp [quote]
        simp only [hne, Bool.false_eq_true, if_false, fetchString_quote _ _ hname, Res.bind,
          checkCh, if_true, hsec, getCh]
        rw [ih (updField inp f) fuel (by simp) (fun x hx => hmem x (List.mem_cons_of_mem _ hx))
          (by simpa using hf)]
        simp

/-- What a schema field does to the record, by its name. -/
theorem updField_schema {browsers hits : List (List Nat)}
    {name email company country job phone : List Nat} (f : List Nat × FieldVal)
    (hf : f ∈ schemaFields browsers hits name email company country job phone) (inp : InMy) :
    (updField inp f).Browsers = (if f.1 = ascii "browsers" then browsers else inp.Browsers) ∧
    (updField inp f).Hits = (if f.1 = ascii "hits" then hits else inp.Hits) ∧
    (updField inp f).Name = (if f.1 = ascii "name" then name else inp.Name) ∧
    (updField inp f).Email = (if f.1 = ascii "email" then email else inp.Email) := by
  obtain ⟨n1, n2, n3, n4, n5, n6, n7, n8⟩ := ascii_names
  simp only [schemaFields, List.mem_cons, List.mem_singleton, List.not_mem_nil, or_false] at hf
  rcases hf with rfl | rfl | rfl | rfl | rfl | rfl | rfl | rfl <;>
    simp [updField, n1, n2, n3, n4, n5, n6, n7, n8]

/-- After a run over schema fields, a retained field holds the schema value
as soon as its name occurred (or it held that value before). -/
theorem foldl_updField {browsers hits : List (List Nat)}
    {name email company country job phone : List Nat} :
    ∀ (fs : List (List Nat × FieldVal)) (inp : InMy),
      (∀ f ∈ fs, f ∈ schemaFields browsers hits name email company country job phone) →
      (((∃ f ∈ fs, f.1 = ascii "browsers") ∨ inp.Browsers = browsers) →
        (fs.foldl updField inp).Browsers = browsers) ∧
      (((∃ f ∈ fs, f.1 = ascii "hits") ∨ inp.Hits = hits) →
        (fs.foldl updField inp).Hits = hits) ∧
      (((∃ f ∈ fs, f.1 = ascii "name") ∨ inp.Name = name) →
        (fs.foldl updField inp).Name = name) ∧
      (((∃ f ∈ fs, f.1 = ascii "email") ∨ inp.Email = email) →
        (fs.foldl updField inp).Email = email) := by
  intro fs
  induction fs with
  | nil => intro inp _; simp
  | cons f t ih =>
    intro inp hmem
    obtain ⟨u1, u2, u3, u4⟩ := updField_schema f (hmem f (List.mem_cons_self _ _)) inp
    obtain ⟨i1, i2, i3, i4⟩ := ih (updField inp f) (fun x hx => hmem x (List.mem_cons_of_mem _ hx))
    simp only [List.foldl_cons]
    refine ⟨fun h => i1 ?_, fun h => i2 ?_, fun h => i3 ?_, fun h => i4 ?_⟩
    · rcases h with ⟨g, hg, hgn⟩ | h
      · rcases List.mem_cons.1 hg with rfl | hg
        · right; rw [u1, if_pos hgn]
        · left; exact ⟨g, hg, hgn⟩
      · right; rw [u1]; split <;> simp [h]
    · rcases h with ⟨g, hg, hgn⟩ | h
      · rcases List.mem_cons.1 hg with rfl | hg
        · right; rw [u2, if_pos hgn]
        · left; exact ⟨g, hg, hgn⟩
      · right; rw [u2]; split <;> simp [h]
    · rcases h with ⟨g, hg, hgn⟩ | h
      · rcases List.mem_cons.1 hg with rfl | hg
        · right; rw [u3, if_pos hgn]
        · left; exact ⟨g, hg, hgn⟩
      · right; rw [u3]; split <;> simp [h]
    · rcases h with ⟨g, hg, hgn⟩ | h
      · rcases List.mem_cons.1 hg with rfl | hg
        · right; rw [u4, if_pos hgn]
        · left; exact ⟨g, hg, hgn⟩
      · right; rw [u4]; split <;> simp [h]

/-! ## Dispatcher and tasks -/

theorem dispatch_single (line spare : List Nat) (h : 10 ∉ line) :
    dispatch (line ++ [10]) spare = .ok [(1, line)] := by
  unfold dispatch
  have hl : (line ++ [10]).length + 1 = (line.length + 1) + 1 := by simp
  rw [hl, dispatchLoop]
  have h0 : 0 < (line ++ [10]).length := by simp
  have hle : lineEnd (line ++ [10]) 0 = line.length := by
    simp [lineEnd, indexByte_append 10 line [] h]
  simp only [h0, if_true, hle, Nat.zero_add]
  have hc : line.length ≤ (line ++ [10]).length + spare.length := by simp; omega
  rw [if_pos hc, dispatchLoop]
  have hn : ¬ line.length + 1 < (line ++ [10]).length := by simp
  simp only [hn, if_false, Res.bind]
  simp

theorem dispatchLoop_ids (buf spare : List Nat) :
    ∀ (fuel bufPos userId : Nat) (lines : List (Nat × List Nat)),
      dispatchLoop buf spare fuel bufPos userId = .ok lines →
      lines.Pairwise (fun a b => a.1 < b.1) ∧ ∀ l ∈ lines, userId ≤ l.1 := by
  intro fuel
  induction fuel with
  | zero => intro bufPos userId lines h; simp [dispatchLoop] at h
  | succ fuel ih =>
    intro bufPos userId lines h
    rw [dispatchLoop] at h
    by_cases hlt : bufPos < buf.length
    · simp only [hlt, if_true] at h
      split at h
      · cases hrec : dispatchLoop buf spare fuel (bufPos + lineEnd buf bufPos + 1) (userId + 1) with
        | ok rest =>
          rw [hrec] at h
          simp only [Res.bind] at h
          have hl := Res.ok.inj h
          obtain ⟨hp, hge⟩ := ih _ _ _ hrec
          subst hl
          refine ⟨List.pairwise_cons.2 ⟨fun l hl => ?_, hp⟩, fun l hl => ?_⟩
          · have := hge l hl; simp only; omega
          · rcases List.mem_cons.1 hl with rfl | hl
            · exact le_refl _
            · have := hge l hl; omega
        | panic => rw [hrec] at h; simp [Res.bind] at h
        | fuel => rw [hrec] at h; simp [Res.bind] at h
      · simp at h
    · simp only [hlt, if_false] at h
      have := Res.ok.inj h
      subst this
      simp

theorem dispatch_ids (buf spare : List Nat) (lines : List (Nat × List Nat))
    (h : dispatch buf spare = .ok lines) : lines.Pairwise (fun a b => a.1 < b.1) :=
  (dispatchLoop_ids buf spare _ _ _ lines h).1

theorem evalRecord_row (t : List IPRange) (userId hc bc : Nat) (inp : InMy) (h b : Nat)
    (row : Option ResultRow) (he : evalRecord t userId hc bc inp = .ok (h, b, row)) :
    ∀ r, row = some r → r = formatRow userId inp := by
  intro r hr
  subst hr
  unfold evalRecord at he
  cases hcnt : countHits t inp.Hits hc with
  | ok c =>
    rw [hcnt] at he
    simp only [Res.bind] at he
    split at he
    · simp at he
    · split at he
      · simp at he
      · simp only [Res.ok.injEq, Prod.mk.injEq, Option.some.injEq] at he
        exact he.2.2.symm
  | panic => rw [hcnt] at he; simp [Res.bind] at he
  | fuel => rw [hcnt] at he; simp [Res.bind] at he

/-- Every row that a task appends carries the sequence number of its line. -/
theorem taskLoop_pos (jp : JsonPiper) (t : List IPRange) (userId : Nat) :
    ∀ (fuel hc bc : Nat) (inp : InMy) (js : List Nat) (rows : List ResultRow),
      taskLoop jp t userId fuel hc bc inp js = .ok rows → ∀ r ∈ rows, r.Pos = userId := by
  intro fuel
  induction fuel with
  | zero => intro hc bc inp js rows h; simp [taskLoop] at h
  | succ fuel ih =>
    intro hc bc inp js rows h
    rw [taskLoop] at h
    cases hs : scanner jp inp js with
    | panic => rw [hs] at h; simp [Res.bind] at h
    | fuel => rw [hs] at h; simp [Res.bind] at h
    | ok res =>
      obtain ⟨more, inp1, js1⟩ := res
      rw [hs] at h
      simp only [Res.bind] at h
      cases more with
      | false =>
        simp only [Bool.not_false, if_true] at h
        have := Res.ok.inj h
        subst this
        simp
      | true =>
        simp only [Bool.not_true, Bool.false_eq_true, if_false] at h
        cases he : evalRecord t userId hc bc inp1 with
        | panic => rw [he] at h; simp at h
        | fuel => rw [he] at h; simp at h
        | ok ev =>
          obtain ⟨h', b', row⟩ := ev
          rw [he] at h
          simp only at h
          cases ht : taskLoop jp t userId fuel h' b' inp1 js1 with
          | panic => rw [ht] at h; simp at h
          | fuel => rw [ht] at h; simp at h
          | ok rows' =>
            rw [ht] at h
            simp only at h
            have := Res.ok.inj h
            subst this
            intro r hr
            rcases List.mem_append.1 hr with hr | hr
            · cases row with
              | none => simp at hr
              | some r0 =>
                simp only [Option.toList_some, List.mem_singleton] at hr
                subst hr
                rw [evalRecord_row t userId hc bc inp1 h' b' _ he r rfl]
                rfl
            · exact ih _ _ _ _ _ ht r hr

theorem runTask_pos (jp : JsonPiper) (t : List IPRange) (userId : Nat) (line : List Nat)
    (rows : List ResultRow) (h : runTask jp t userId line = .ok rows) :
    ∀ r ∈ rows, r.Pos = userId := by
  unfold runTask at h
  cases hs : setupScanner line with
  | ok js => rw [hs] at h; exact taskLoop_pos jp t userId _ _ _ _ _ _ h
  | panic => rw [hs] at h; simp [Res.bind] at h
  | fuel => rw [hs] at h; simp [Res.bind] at h

/-- The task of a line that holds exactly one object appends the row of its
record if the record passes, and nothing if not. -/
theorem runTask_one (t : List IPRange) (userId : Nat) (line : List Nat) (rec : InMy)
    (h : OneRecord line rec) :
    runTask JsonPiper.init t userId line =
      .ok (if passesRef t rec then [formatRow userId rec] else []) := by
  obtain ⟨js, hs, hsc⟩ := h
  have hlen : line.length + 1 = (js.length + 1) + 1 := by
    cases line with
    | nil => simp [setupScanner, checkCh] at hs
    | cons c cs =>
      simp only [setupScanner, checkCh] at hs
      split at hs
      · have := Res.ok.inj hs; subst this; simp
      · simp at hs
  unfold runTask
  rw [hs, hlen]
  simp only [Res.bind]
  rw [taskLoop, hsc]
  obtain ⟨hc, bc, he⟩ := evalRecord_fresh t userId rec
  have hend : scanner JsonPiper.init rec [] = .ok (false, rec, []) := by
    simp [scanner, scanLoop]
  simp only [Res.bind, Bool.not_true, Bool.false_eq_true, if_false, he]
  simp only [taskLoop, hend, Res.bind, Bool.not_false, if_true]
  split <;> simp

/-! ## Decimal text -/

theorem digitChar_toNat : ∀ d, d < 10 → (Nat.digitChar d).toNat = 48 + d := by decide

theorem toDigitsCore_decimalCore : ∀ (fuel n : Nat) (ds : List Char),
    (Nat.toDigitsCore 10 fuel n ds).map Char.toNat = decimalCore fuel n (ds.map Char.toNat) := by
  intro fuel
  induction fuel with
  | zero => intro n ds; simp [Nat.toDigitsCore, decimalCore]
  | succ fuel ih =>
    intro n ds
    simp only [Nat.toDigitsCore, decimalCore]
    have hd := digitChar_toNat (n % 10) (Nat.mod_lt _ (by decide))
    split
    · simp [hd]
    · rw [ih]; simp [hd]

/-- The model of `%d` writes the usual decimal numeral. -/
theorem decimal_eq_repr (n : Nat) : decimal n = ascii (Nat.repr n) := by
  simp only [decimal, ascii, Nat.repr, Nat.toDigits, List.asString]
  rw [toDigitsCore_decimalCore]
  simp

/-! ## Replacement of the first `@` -/

theorem replaceFirst_absent (old : Nat) (new s : List Nat) (h : old ∉ s) :
    replaceFirst old new s = s := by
  induction s with
  | nil => rfl
  | cons c cs ih =>
    have hc : c ≠ old := fun e => h (by simp [e])
    simp [replaceFirst, hc, ih (fun e => h (List.mem_cons_of_mem _ e))]

theorem replaceFirst_first (old : Nat) (new pre post : List Nat) (h : old ∉ pre) :
    replaceFirst old new (pre ++ old :: post) = pre ++ new ++ post := by
  induction pre with
  | nil => simp [replaceFirst]
  | cons c cs ih =>
    have hc : c ≠ old := fun e => h (by simp [e])
    simp [replaceFirst, hc, ih (fun e => h (List.mem_cons_of_mem _ e))]

/-! ## Runs of all tasks -/

theorem runTasks_one (t : List IPRange) (lines : List (Nat × List Nat)) (recs : List InMy)
    (h : List.Forall₂ (fun l r => OneRecord l.2 r) lines recs) :
    ∃ rowss, runTasks JsonPiper.init t lines = .ok rowss ∧
      rowss.flatten = passingRows t lines recs := by
  induction h with
  | nil => exact ⟨[], rfl, rfl⟩
  | @cons l r ls rs hl _ ih =>
    obtain ⟨rowss, hr, hf⟩ := ih
    refine ⟨(if passesRef t r then [formatRow l.1 r] else []) :: rowss, ?_, ?_⟩
    · obtain ⟨uid, line⟩ := l
      simp only [runTasks, runTask_one t uid line r hl, hr, Res.bind]
    · simp only [List.flatten_cons, hf, passingRows]

theorem passingRows_pos (t : List IPRange) : ∀ (lines : List (Nat × List Nat)) (recs : List InMy),
    ∀ r ∈ passingRows t lines recs, ∃ l ∈ lines, r.Pos = l.1
  | [], _, r, hr => by simp [passingRows] at hr
  | _ :: _, [], r, hr => by simp [passingRows] at hr
  | l :: ls, x :: xs, r, hr => by
    simp only [passingRows, List.mem_append] at hr
    rcases hr with hr | hr
    · split at hr
      · simp only [List.mem_singleton] at hr
        exact ⟨l, List.mem_cons_self _ _, by rw [hr]; rfl⟩
      · simp at hr
    · obtain ⟨l', hl', e⟩ := passingRows_pos t ls xs r hr
      exact ⟨l', List.mem_cons_of_mem _ hl', e⟩

theorem passingRows_sorted (t : List IPRange) : ∀ (lines : List (Nat × List Nat)) (recs : List InMy),
    lines.Pairwise (fun a b => a.1 < b.1) →
      (passingRows t lines recs).Pairwise (fun a b => a.Pos < b.Pos)
  | [], _, _ => by simp [passingRows]
  | _ :: _, [], _ => by simp [passingRows]
  | l :: ls, x :: xs, h => by
    rw [List.pairwise_cons] at h
    simp only [passingRows]
    refine List.pairwise_append.2 ⟨?_, passingRows_sorted t ls xs h.2, ?_⟩
    · split <;> simp
    · intro a ha b hb
      obtain ⟨l', hl', e⟩ := passingRows_pos t ls xs b hb
      have hlt := h.1 l' hl'
      split at ha
      · simp only [List.mem_singleton] at ha
        rw [ha, e]; exact hlt
      · simp at ha

theorem passingRows_length (t : List IPRange) : ∀ (lines : List (Nat × List Nat)) (recs : List InMy),
    lines.length = recs.length → (passingRows t lines recs).length = recs.countP (passesRef t)
  | [], [], _ => by simp [passingRows]
  | [], _ :: _, h => by simp at h
  | _ :: _, [], h => by simp at h
  | l :: ls, x :: xs, h => by
    simp only [passingRows, List.length_append, List.countP_cons]
    rw [passingRows_length t ls xs (by simpa using h)]
    split
    · simp; omega
    · simp

theorem emit_sorted (rows : List ResultRow) (h : rows.Pairwise (fun a b => a.Pos < b.Pos)) :
    emit rows = ascii "Total: " ++ decimal rows.length ++ ascii "\n" ++
      (rows.map (·.Line)).flatten := by
  unfold emit
  rw [sortSlice_of_perm_strict (fun r => r.Pos) rows rows (List.Perm.refl _) h]

/-! ## Order of arrival -/

theorem runTasks_rows (jp : JsonPiper) (t : List IPRange) :
    ∀ (lines : List (Nat × List Nat)) (rowss : List (List ResultRow)),
      runTasks jp t lines = .ok rowss → lines.Pairwise (fun a b => a.1 < b.1) →
      (∀ rs ∈ rowss, rs.length ≤ 1) →
      rowss.flatten.Pairwise (fun a b => a.Pos < b.Pos) ∧
        ∀ r ∈ rowss.flatten, ∃ l ∈ lines, r.Pos = l.1 := by
  intro lines
  induction lines with
  | nil =>
    intro rowss h _ _
    simp only [runTasks] at h
    have := Res.ok.inj h
    subst this
    simp
  | cons l ls ih =>
    intro rowss h hp hone
    obtain ⟨uid, line⟩ := l
    rw [runTasks] at h
    cases h1 : runTask jp t uid line with
    | panic => rw [h1] at h; simp [Res.bind] at h
    | fuel => rw [h1] at h; simp [Res.bind] at h
    | ok rows =>
      rw [h1] at h
      simp only [Res.bind] at h
      cases h2 : runTasks jp t ls with
      | panic => rw [h2] at h; simp at h
      | fuel => rw [h2] at h; simp at h
      | ok more =>
        rw [h2] at h
        simp only at h
        have := Res.ok.inj h
        subst this
        rw [List.pairwise_cons] at hp
        obtain ⟨ihs, ihp⟩ := ih more h2 hp.2 (fun rs hrs => hone rs (List.mem_cons_of_mem _ hrs))
        have hpos := runTask_pos jp t uid line rows h1
        have hlen := hone rows (List.mem_cons_self _ _)
        simp only [List.flatten_cons]
        refine ⟨List.pairwise_append.2 ⟨?_, ihs, ?_⟩, ?_⟩
        · match rows, hlen with
          | [], _ => simp
          | [_], _ => simp
          | _ :: _ :: _, hl => simp at hl
        · intro a ha b hb
          obtain ⟨l', hl', e⟩ := ihp b hb
          rw [hpos a ha, e]
          exact hp.1 l' hl'
        · intro r hr
          rcases List.mem_append.1 hr with hr | hr
          · exact ⟨(uid, line), List.mem_cons_self _ _, hpos r hr⟩
          · obtain ⟨l', hl', e⟩ := ihp r hr
            exact ⟨l', List.mem_cons_of_mem _ hl', e⟩

/-! ## A table of two ranges -/

theorem nine_ten_apart : ¬ Overlap (Spec.range ⟨9, 1, 2, 3, 8⟩) (Spec.range ⟨10, 0, 0, 0, 24⟩) := by
  rintro ⟨ip, hip, h9, h10⟩
  have w9 : (⟨9, 1, 2, 3, 8⟩ : Spec).WF := by unfold Spec.WF; decide
  have w10 : (⟨10, 0, 0, 0, 24⟩ : Spec).WF := by unfold Spec.WF; decide
  rw [contains_iff_div _ 24 ip (by decide) rfl rfl (Spec.addr_lt _ w9) hip] at h9
  rw [contains_iff_div _ 8 ip (by decide) rfl rfl (Spec.addr_lt _ w10) hip] at h10
  simp only [Spec.range, Spec.addr] at h9 h10
  norm_num at h9 h10
  omega

theorem ten_nine_apart : ¬ Overlap (Spec.range ⟨10, 0, 0, 0, 24⟩) (Spec.range ⟨9, 1, 2, 3, 8⟩) :=
  fun h => nine_ten_apart (overlap_symm _ _ h)

theorem twoNets_ok : TableOK twoNets := by
  have w9 : (⟨9, 1, 2, 3, 8⟩ : Spec).WF := by unfold Spec.WF; decide
  have w10 : (⟨10, 0, 0, 0, 24⟩ : Spec).WF := by unfold Spec.WF; decide
  refine ⟨?_, ?_, ?_⟩
  · intro r hr
    simp only [twoNets, List.mem_cons, List.mem_singleton, List.not_mem_nil, or_false] at hr
    rcases hr with rfl | rfl
    · exact Spec.range_block _ w9
    · exact Spec.range_block _ w10
  · simp only [twoNets, List.pairwise_cons, List.mem_singleton, List.not_mem_nil, forall_eq,
      IsEmpty.forall_iff, implies_true, List.Pairwise.nil, and_true]
    decide
  · simp only [twoNets, List.pairwise_cons, List.mem_singleton, List.not_mem_nil, forall_eq,
      IsEmpty.forall_iff, implies_true, List.Pairwise.nil, and_true]
    exact nine_ten_apart

/-! ## Text and number of an address -/

theorem dotted_eq (a b c d : Nat) :
    dotted a b c d = decimal a ++ 46 :: (decimal b ++ 46 :: (decimal c ++ 46 :: (decimal d ++ []))) := by
  have h1 : ascii "." = [46] := rfl
  simp [dotted, h1]

theorem parseIP_dotted (a b c d : Nat) (ha : a ≤ 255) (hb : b ≤ 255) (hc : c ≤ 255)
    (hd : d ≤ 255) :
    (parseIP (dotted a b c d)).1 = a * 2 ^ 24 + b * 2 ^ 16 + c * 2 ^ 8 + d := by
  rw [dotted_eq]
  unfold parseIP
  rw [parseIPLoop_octet _ ha]
  rw [parseIPLoop]
  simp only [if_true]
  rw [parseIPLoop_octet _ hb]
  rw [parseIPLoop]
  simp only [if_true]
  rw [parseIPLoop_octet _ hc]
  rw [parseIPLoop]
  simp only [if_true]
  rw [parseIPLoop_octet _ hd]
  rw [parseIPLoop]
  simp only [shl32, u32, Nat.shiftLeft_eq]
  norm_num
  split <;> omega

theorem octets_of_address (ip : Nat) (h : ip < u32) :
    ip >>> 24 ≤ 255 ∧ (ip >>> 16) &&& 255 ≤ 255 ∧ (ip >>> 8) &&& 255 ≤ 255 ∧ ip &&& 255 ≤ 255 ∧
      (ip >>> 24) * 2 ^ 24 + ((ip >>> 16) &&& 255) * 2 ^ 16 + ((ip >>> 8) &&& 255) * 2 ^ 8 +
        (ip &&& 255) = ip := by
  have e : ∀ x : Nat, x &&& 255 = x % 256 := fun x => Nat.and_pow_two_sub_one_eq_mod x 8
  simp only [e, Nat.shiftRight_eq_div_pow, u32] at h ⊢
  norm_num
  omega

/-! ## Where the address scan stops -/

theorem parseIPLoop_stop (c : Nat) (t : List Nat) (hc : ¬ (c = 46 ∨ (48 ≤ c ∧ c ≤ 57))) :
    ∀ (p : List Nat) (i ip oct shift n : Nat), (∀ x ∈ p, x = 46 ∨ (48 ≤ x ∧ x ≤ 57)) →
      (parseIPLoop (p ++ c :: t) i ip oct shift n).1 = (parseIPLoop p i ip oct shift n).1 ∧
      (parseIPLoop (p ++ c :: t) i ip oct shift n).2.1 = (parseIPLoop p i ip oct shift n).2.1 ∧
      (parseIPLoop (p ++ c :: t) i ip oct shift n).2.2 = i + p.length := by
  intro p
  induction p with
  | nil =>
    intro i ip oct shift n _
    have h1 : ¬ c = 46 := fun e => hc (Or.inl e)
    have h2 : ¬ (48 ≤ c ∧ c ≤ 57) := fun e => hc (Or.inr e)
    simp [parseIPLoop, h1, h2]
  | cons x xs ih =>
    intro i ip oct shift n h
    have hx := h x (List.mem_cons_self _ _)
    have hxs : ∀ y ∈ xs, y = 46 ∨ (48 ≤ y ∧ y ≤ 57) := fun y hy => h y (List.mem_cons_of_mem _ hy)
    rw [List.cons_append, parseIPLoop, parseIPLoop]
    by_cases h46 : x = 46
    · simp only [h46, if_true]
      have := ih (i + 1) ((ip + shl32 oct shift) % u32) 0 ((shift + u32 - 8) % u32) i hxs
      simp only [List.length_cons]
      refine ⟨this.1, this.2.1, ?_⟩
      rw [this.2.2]; omega
    · have hd : 48 ≤ x ∧ x ≤ 57 := by rcases hx with h' | h'; exact absurd h' h46; exact h'
      simp only [h46, if_false, hd, and_self, if_true]
      have := ih (i + 1) ip ((oct * 10 + (x - 48)) % u32) shift i hxs
      simp only [List.length_cons]
      refine ⟨this.1, this.2.1, ?_⟩
      rw [this.2.2]; omega

/-! ## Masks, bit by bit -/

theorem block_mask_testBit (k : Nat) (hk : k ≤ 32) (i : Nat) :
    (u32 - 2 ^ k).testBit i = decide (k ≤ i ∧ i < 32) := by
  have hm : u32 - 2 ^ k = (2 ^ (32 - k) - 1) <<< k := by
    rw [Nat.shiftLeft_eq, Nat.sub_mul, ← Nat.pow_add, Nat.sub_add_cancel hk, Nat.one_mul]
    rfl
  rw [hm, Nat.testBit_shiftLeft, Nat.testBit_two_pow_sub_one]
  by_cases h1 : k ≤ i
  · by_cases h2 : i < 32
    · have : i - k < 32 - k := by omega
      simp [h1, h2, this]
    · have : ¬ i - k < 32 - k := by omega
      simp [h1, h2, this]
  · simp [h1]

theorem Spec.range_builtFrom (s : Spec) (h : s.WF) : s.range.BuiltFrom s := by
  have hk : 32 - s.n ≤ 32 := by omega
  refine ⟨rfl, rfl, fun i => ?_, rfl, fun addr ha => ?_⟩
  · have := block_mask_testBit (32 - s.n) hk i
    have e : 32 - (32 - s.n) = s.n := by have := h.2.2.2.2; omega
    simpa [Spec.range, u32] using this
  · rw [contains_iff_div s.range (32 - s.n) addr hk rfl rfl (Spec.addr_lt s h) ha]
    simp [Nat.shiftRight_eq_div_pow, Spec.range]

theorem parseNetworksMy_perm (specs : List Spec) (h : ∀ s ∈ specs, s.WF) :
    ∃ t, parseNetworksMy (specs.map Spec.text) = .ok t ∧ t.Perm (specs.map Spec.range) :=
  ⟨sortSlice (fun a b => decide (a.IP < b.IP)) (specs.map Spec.range),
    by simp only [parseNetworksMy, parseNetworksLoop_specs specs h], sortSlice_perm _ _⟩

/-! ## Fields outside the schema -/

theorem scanSection_unknown (sect : List Nat) (h : sect ∉ recognisedNames) (inp : InMy)
    (js : List Nat) : scanSection JsonPiper.init sect inp js = .panic := by
  simp only [recognisedNames, List.mem_cons, List.mem_singleton, List.not_mem_nil, or_false,
    not_or] at h
  obtain ⟨h1, h2, h3, h4, h5, h6, h7, h8⟩ := h
  have k1 : ¬ sect = JsonPiper.init.strBrowsers := h1
  have k2 : ¬ sect = JsonPiper.init.strCompany := h2
  have k3 : ¬ sect = JsonPiper.init.strCountry := h3
  have k4 : ¬ sect = JsonPiper.init.strEmail := h4
  have k5 : ¬ sect = JsonPiper.init.strHits := h5
  have k6 : ¬ sect = JsonPiper.init.strJob := h6
  have k7 : ¬ sect = JsonPiper.init.strName := h7
  have k8 : ¬ sect = JsonPiper.init.strPhone := h8
  unfold scanSection
  rw [if_neg k1, if_neg k2, if_neg k3, if_neg k4, if_neg k5, if_neg k6, if_neg k7, if_neg k8]

theorem fetchString_not_quote (c : Nat) (rest : List Nat) (h : c ≠ 34) :
    fetchString (c :: rest) = .panic := by
  simp [fetchString, checkCh, h, Res.bind]

theorem fetchSliceOfStrings_not_bracket (c : Nat) (rest : List Nat) (h : c ≠ 91) :
    fetchSliceOfStrings (c :: rest) = .panic := by
  simp [fetchSliceOfStrings, checkCh, h, Res.bind]

theorem fetchSliceOfStrings_empty (rest : List Nat) :
    fetchSliceOfStrings (91 :: 93 :: rest) = .panic := by
  simp [fetchSliceOfStrings, checkCh, Res.bind, fetchSliceLoop, fetchString]

/-- A string value is read whole, with any string behind it. -/
theorem fetchString_value (s : List Nat) (rest : List Nat) (h : 34 ∉ s) :
    fetchString ((FieldVal.str s).render ++ rest) = .ok (s, rest) := by
  simpa [FieldVal.render] using fetchString_quote s rest h

/-- Scanning the value of a quote-free field either stores the field and
stops right behind its text, or panics. -/
theorem scanSection_field (f : List Nat × FieldVal) (hq : FieldQuoteFree f) (inp : InMy)
    (rest : List Nat) :
    (∃ inp1, scanSection JsonPiper.init f.1 inp (f.2.render ++ rest) = .ok (inp1, rest)) ∨
      scanSection JsonPiper.init f.1 inp (f.2.render ++ rest) = .panic := by
  obtain ⟨name, v⟩ := f
  obtain ⟨_, hv⟩ := hq
  have hS : (∃ s, fetchString (v.render ++ rest) = .ok (s, rest)) ∨
      fetchString (v.render ++ rest) = .panic := by
    cases v with
    | str s => exact Or.inl ⟨s, fetchString_value s rest hv⟩
    | arr l =>
      right
      simpa [FieldVal.render] using fetchString_not_quote 91 (renderStrings l ++ 93 :: rest)
        (by decide)
  have hA : (∃ sl, fetchSliceOfStrings (v.render ++ rest) = .ok (sl, rest)) ∨
      fetchSliceOfStrings (v.render ++ rest) = .panic := by
    cases v with
    | str s =>
      right
      simpa [FieldVal.render, quote] using fetchSliceOfStrings_not_bracket 34 (s ++ 34 :: rest)
        (by decide)
    | arr l =>
      by_cases hl : l = []
      · right
        subst hl
        simpa [FieldVal.render, renderStrings] using fetchSliceOfStrings_empty rest
      · exact Or.inl ⟨l, fetchSliceOfStrings_render l rest hl hv⟩
  have hS1 : ∀ g : List Nat → InMy,
      (∃ inp1, ((fetchString (v.render ++ rest)).bind fun x => Res.ok (g x.1, x.2)) =
        .ok (inp1, rest)) ∨
      ((fetchString (v.render ++ rest)).bind fun x => Res.ok (g x.1, x.2)) = .panic := by
    intro g
    rcases hS with ⟨s, h⟩ | h
    · left; exact ⟨g s, by rw [h]; rfl⟩
    · right; rw [h]; rfl
  have hA1 : ∀ g : List (List Nat) → InMy,
      (∃ inp1, ((fetchSliceOfStrings (v.render ++ rest)).bind fun x => Res.ok (g x.1, x.2)) =
        .ok (inp1, rest)) ∨
      ((fetchSliceOfStrings (v.render ++ rest)).bind fun x => Res.ok (g x.1, x.2)) = .panic := by
    intro g
    rcases hA with ⟨s, h⟩ | h
    · left; exact ⟨g s, by rw [h]; rfl⟩
    · right; rw [h]; rfl
  unfold scanSection
  by_cases c1 : name = JsonPiper.init.strBrowsers
  · rw [if_pos c1]; exact hA1 fun sl => { inp with Browsers := sl }
  rw [if_neg c1]
  by_cases c2 : name = JsonPiper.init.strCompany
  · rw [if_pos c2]; exact hS1 fun _ => inp
  rw [if_neg c2]
  by_cases c3 : name = JsonPiper.init.strCountry
  · rw [if_pos c3]; exact hS1 fun _ => inp
  rw [if_neg c3]
  by_cases c4 : name = JsonPiper.init.strEmail
  · rw [if_pos c4]; exact hS1 fun s => { inp with Email := s }
  rw [if_neg c4]
  by_cases c5 : name = JsonPiper.init.strHits
  · rw [if_pos c5]; exact hA1 fun sl => { inp with Hits := sl }
  rw [if_neg c5]
  by_cases c6 : name = JsonPiper.init.strJob
  · rw [if_pos c6]; exact hS1 fun _ => inp
  rw [if_neg c6]
  by_cases c7 : name = JsonPiper.init.strName
  · rw [if_pos c7]; exact hS1 fun s => { inp with Name := s }
  rw [if_neg c7]
  by_cases c8 : name = JsonPiper.init.strPhone
  · rw [if_pos c8]; exact hS1 fun _ => inp
  rw [if_neg c8]
  exact Or.inr rfl

/-- The scanner loop panics on the text of quote-free fields as soon as one
of the names is not recognised. -/
theorem scanLoop_unknown (rest : List Nat) :
    ∀ (fs : List (List Nat × FieldVal)) (inp : InMy) (fuel : Nat),
      (∀ f ∈ fs, FieldQuoteFree f) → (∃ f ∈ fs, f.1 ∉ recognisedNames) → fs.length ≤ fuel →
      scanLoop JsonPiper.init fuel inp (renderFields fs ++ 125 :: rest) = .panic := by
  intro fs
  induction fs with
  | nil => intro inp fuel _ h; simp at h
  | cons f t ih =>
    intro inp fuel hq hu hf
    have hqf := hq f (List.mem_cons_self _ _)
    cases fuel with
    | zero => simp at hf
    | succ fuel =>
      have hshape : ∃ tail, renderFields (f :: t) ++ 125 :: rest =
          quote f.1 ++ 58 :: (f.2.render ++ tail) ∧
          (t = [] → tail = 125 :: rest) ∧
          (t ≠ [] → tail = 44 :: (renderFields t ++ 125 :: rest)) := by
        cases t with
        | nil => exact ⟨125 :: rest, by simp [renderFields, renderField], fun _ => rfl,
            fun h => absurd rfl h⟩
        | cons g r => exact ⟨44 :: (renderFields (g :: r) ++ 125 :: rest),
            by simp [renderFields, renderField], fun h => by simp at h, fun _ => rfl⟩
      obtain ⟨tail, he, _, htl⟩ := hshape
      rw [he, scanLoop]
      have hne : (quote f.1 ++ 58 :: (f.2.render ++ tail)).isEmpty = false := by simp [quote]
      simp only [hne, Bool.false_eq_true, if_false, fetchString_quote _ _ hqf.1, Res.bind,
        checkCh, if_true]
      by_cases hk : f.1 ∈ recognisedNames
      · have htne : t ≠ [] := by
          intro e
          subst e
          obtain ⟨g, hg, hgu⟩ := hu
          simp only [List.mem_singleton] at hg
          subst hg
          exact hgu hk
        have hut : ∃ g ∈ t, g.1 ∉ recognisedNames := by
          obtain ⟨g, hg, hgu⟩ := hu
          rcases List.mem_cons.1 hg with rfl | hg
          · exact absurd hk hgu
          · exact ⟨g, hg, hgu⟩
        rcases scanSection_field f hqf inp tail with ⟨inp1, hs⟩ | hs
        · rw [hs, htl htne]
          simp only [getCh, if_true]
          exact ih inp1 fuel (fun x hx => hq x (List.mem_cons_of_mem _ hx)) hut
            (by simpa using hf)
        · rw [hs]
      · rw [scanSection_unknown f.1 hk]

/-! ## Entries that hold a signature -/

theorem reToks_signatures :
    reToks "Chrome/60.0.3112.90" =
        [.lit 67, .lit 104, .lit 114, .lit 111, .lit 109, .lit 101, .lit 47, .lit 54, .lit 48,
         .any, .lit 48, .any, .lit 51, .lit 49, .lit 49, .lit 50, .any, .lit 57, .lit 48] ∧
      reToks "Chrome/52.0.2743.116" =
        [.lit 67, .lit 104, .lit 114, .lit 111, .lit 109, .lit 101, .lit 47, .lit 53, .lit 50,
         .any, .lit 48, .any, .lit 50, .lit 55, .lit 52, .lit 51, .any, .lit 49, .lit 49,
         .lit 54] ∧
      reToks "Chrome/57.0.2987.133" =
        [.lit 67, .lit 104, .lit 114, .lit 111, .lit 109, .lit 101, .lit 47, .lit 53, .lit 55,
         .any, .lit 48, .any, .lit 50, .lit 57, .lit 56, .lit 55, .any, .lit 49, .lit 51,
         .lit 51] := by
  decide

theorem ascii_signatures :
    ascii "Chrome/60.0.3112.90" =
        [67, 104, 114, 111, 109, 101, 47, 54, 48, 46, 48, 46, 51, 49, 49, 50, 46, 57, 48] ∧
      ascii "Chrome/52.0.2743.116" =
        [67, 104, 114, 111, 109, 101, 47, 53, 50, 46, 48, 46, 50, 55, 52, 51, 46, 49, 49, 54] ∧
      ascii "Chrome/57.0.2987.133" =
        [67, 104, 114, 111, 109, 101, 47, 53, 55, 46, 48, 46, 50, 57, 56, 55, 46, 49, 51, 51] := by
  decide

theorem matchToks_dot (ts : List Tok) (cs : List Nat) :
    matchToks (.any :: ts) (46 :: cs) = matchToks ts cs := by
  simp [matchToks, runeWidth]

theorem matchToks_lit (b : Nat) (ts : List Tok) (cs : List Nat) :
    matchToks (.lit b :: ts) (b :: cs) = matchToks ts cs := by
  simp [matchToks]

/-- Each signature, read as text, matches its own alternative of the pattern. -/
theorem signature_matches (rest : List Nat) :
    matchToks (reToks "Chrome/60.0.3112.90") (ascii "Chrome/60.0.3112.90" ++ rest) = true ∧
      matchToks (reToks "Chrome/52.0.2743.116") (ascii "Chrome/52.0.2743.116" ++ rest) = true ∧
      matchToks (reToks "Chrome/57.0.2987.133") (ascii "Chrome/57.0.2987.133" ++ rest) = true := by
  obtain ⟨r1, r2, r3⟩ := reToks_signatures
  obtain ⟨a1, a2, a3⟩ := ascii_signatures
  rw [r1, r2, r3, a1, a2, a3]
  simp only [List.cons_append, List.nil_append, matchToks_lit, matchToks_dot]
  simp [matchToks]

theorem searchToks_of_match (ts : List Tok) (x : List Nat) (h : matchToks ts x = true) :
    ∀ pre : List Nat, searchToks ts (pre ++ x) = true := by
  intro pre
  induction pre with
  | nil =>
    cases x with
    | nil => simpa [searchToks] using h
    | cons c cs => simp [searchToks, h]
  | cons c cs ih => simp [searchToks, ih]

theorem containsSub_split (pat : List Nat) : ∀ s : List Nat, containsSub pat s = true →
    ∃ pre rest, s = pre ++ (pat ++ rest) := by
  intro s
  induction s with
  | nil =>
    intro h
    simp only [containsSub, List.isEmpty_iff] at h
    exact ⟨[], [], by simp [h]⟩
  | cons c cs ih =>
    intro h
    simp only [containsSub, Bool.or_eq_true] at h
    rcases h with h | h
    · obtain ⟨t, ht⟩ := List.isPrefixOf_iff_prefix.1 h
      exact ⟨[], t, by simp [ht]⟩
    · obtain ⟨pre, rest, e⟩ := ih h
      exact ⟨c :: pre, rest, by simp [e]⟩

/-- An entry that holds one of the three signatures matches the pattern. -/
theorem signature_entry_matches (s : List Nat)
    (h : ∃ sig ∈ chromeBrowsers, containsSub sig s = true) : userAgentMatch s = true := by
  obtain ⟨sig, hsig, hc⟩ := h
  obtain ⟨pre, rest, e⟩ := containsSub_split sig s hc
  obtain ⟨m1, m2, m3⟩ := signature_matches rest
  simp only [chromeBrowsers, List.mem_cons, List.mem_singleton, List.not_mem_nil, or_false] at hsig
  subst e
  simp only [userAgentMatch, userAgentAlts, List.any_cons, List.any_nil, Bool.or_false,
    Bool.or_eq_true]
  rcases hsig with rfl | rfl | rfl
  · exact Or.inl (searchToks_of_match _ _ m1 pre)
  · exact Or.inr (Or.inl (searchToks_of_match _ _ m2 pre))
  · exact Or.inr (Or.inr (searchToks_of_match _ _ m3 pre))

/-! # The claims -/

/-- C1 (as stated) fails on a table with overlapping ranges: the three hits
of the record lie in `10.0.0.0/8`, its three browsers match, and the evaluator
produces no row, because the bisection misses the enclosing range. -/
theorem evaluator_misses_overlapping_range :
    parseNetworksMy [ascii "10.0.0.0/8", ascii "10.1.0.0/16", ascii "10.2.0.0/16"] =
        .ok overlapTable ∧
      hitsThresh ≤ driftRecord.Hits.countP (fun h => linearScan (parseIP h).1 overlapTable) ∧
      browsersThresh ≤ driftRecord.Browsers.countP userAgentMatch ∧
      evalRecord overlapTable 1 0 0 driftRecord = .ok (0, 0, none) := by
  decide!

/-- C1 (amended). On every range table that meets the precondition of the
search (prefix ranges sorted by base address, no two overlapping) and for
every record, the evaluator, started with fresh counters, produces the row of
the record if at least 3 of its hits parse to an address inside some range of
the table and at least 3 of its browsers match the pattern, and no row
otherwise. -/
theorem evaluator_threshold (t : List IPRange) (ht : TableOK t) (userId : Nat) (inp : InMy) :
    ∃ h b, evalRecord t userId 0 0 inp =
      .ok (h, b,
        if hitsThresh ≤ inp.Hits.countP (fun x => linearScan (parseIP x).1 t) ∧
            browsersThresh ≤ inp.Browsers.countP userAgentMatch
        then some (formatRow userId inp) else none) := by
  obtain ⟨h, b, he⟩ := evalRecord_fresh t userId inp
  refine ⟨h, b, ?_⟩
  rw [he, passesRef_of_tableOK t ht inp]
  congr 3
  simp only [Bool.and_eq_true, decide_eq_true_eq]

/-- C1 (amended), at the table of `9.1.2.3/8` and `10.0.0.0/24` and the
record of the scenario. -/
theorem evaluator_threshold_witness :
    TableOK twoNets ∧ ∃ h b, evalRecord twoNets 1 0 0 annRecord =
      .ok (h, b,
        if hitsThresh ≤ annRecord.Hits.countP (fun x => linearScan (parseIP x).1 twoNets) ∧
            browsersThresh ≤ annRecord.Browsers.countP userAgentMatch
        then some (formatRow 1 annRecord) else none) :=
  ⟨twoNets_ok, evaluator_threshold twoNets twoNets_ok 1 annRecord⟩

/-- C2. For well-formed specs `A.B.C.D/N` (octets up to 255, `N` up to 32)
whose ranges do not overlap pairwise, `parseNetworksMy` returns a table, and
on it `searchIPInNetworks` returns `true` for a 32-bit address (the first and
the last address of each range included) exactly when a linear scan finds a
range that contains the address. -/
theorem search_agrees_with_linear_scan (specs : List Spec) (hwf : ∀ s ∈ specs, s.WF)
    (hdis : (specs.map Spec.range).Pairwise (fun r s => ¬ Overlap r s)) :
    ∃ t, parseNetworksMy (specs.map Spec.text) = .ok t ∧
      ∀ ip, ip < u32 → searchIPInNetworks ip t = .ok (linearScan ip t) := by
  obtain ⟨t, ht, hok, _⟩ := parseNetworksMy_specs specs hwf hdis
  exact ⟨t, ht, fun ip hip => search_eq_linearScan ip t hok hip⟩

/-- C2, at the specs `10.0.0.0/24` and `9.1.2.3/8`. -/
theorem search_agrees_with_linear_scan_witness :
    ((∀ s ∈ [(⟨10, 0, 0, 0, 24⟩ : Spec), ⟨9, 1, 2, 3, 8⟩], s.WF) ∧
      ([(⟨10, 0, 0, 0, 24⟩ : Spec), ⟨9, 1, 2, 3, 8⟩].map Spec.range).Pairwise
        (fun r s => ¬ Overlap r s)) ∧
      ∃ t, parseNetworksMy ([(⟨10, 0, 0, 0, 24⟩ : Spec), ⟨9, 1, 2, 3, 8⟩].map Spec.text) = .ok t ∧
        ∀ ip, ip < u32 → searchIPInNetworks ip t = .ok (linearScan ip t) :=
  have hwf : ∀ s ∈ [(⟨10, 0, 0, 0, 24⟩ : Spec), ⟨9, 1, 2, 3, 8⟩], s.WF := by
    intro s hs
    simp only [List.mem_cons, List.mem_singleton, List.not_mem_nil, or_false] at hs
    rcases hs with rfl | rfl <;> (unfold Spec.WF; decide)
  have hdis : ([(⟨10, 0, 0, 0, 24⟩ : Spec), ⟨9, 1, 2, 3, 8⟩].map Spec.range).Pairwise
      (fun r s => ¬ Overlap r s) := by
    simp only [List.map_cons, List.map_nil, List.pairwise_cons, List.mem_singleton,
      List.not_mem_nil, forall_eq, IsEmpty.forall_iff, implies_true, List.Pairwise.nil, and_true]
    exact ten_nine_apart
  ⟨⟨hwf, hdis⟩, search_agrees_with_linear_scan _ hwf hdis⟩

/-- C3 fails on the code: for a buffer without a final newline the
replacement value of `nPos` is `len(buf) - 1` whatever `bufPos` is, so the
input `ab` is delivered as the line `a` (while `ab` with a newline appended
is delivered as `ab`), and the scenario line without its newline loses its
closing brace and makes the scanner panic. -/
theorem dispatch_drops_last_byte :
    dispatch (ascii "ab") [] = .ok [(1, ascii "a")] ∧
      dispatch (ascii "ab\n") [] = .ok [(1, ascii "ab")] ∧
      Fast scenarioLine [] [ascii "10.0.0.0/24"] = .panic := by
  decide!

/-- C4 (as stated) fails on a line that the scanner reads without failing
but that holds more than one run of fields: the first record has two hits in
range, the second one has one, neither passes the thresholds, and the header
still counts one row, because the counters of the task run on. -/
theorem header_counts_running_counters :
    setupScanner splitHitsLine = .ok (splitHitsLine.drop 1) ∧
      scanner JsonPiper.init ⟨[], [], [], []⟩ (splitHitsLine.drop 1) =
        .ok (true, ⟨chromeBrowsers, [ascii "10.0.0.1", ascii "10.0.0.2"], ascii "n", ascii "e"⟩,
          ascii "\"hits\":[\"10.0.0.3\"]\x7d") ∧
      scanner JsonPiper.init
          ⟨chromeBrowsers, [ascii "10.0.0.1", ascii "10.0.0.2"], ascii "n", ascii "e"⟩
          (ascii "\"hits\":[\"10.0.0.3\"]\x7d") =
        .ok (true, ⟨chromeBrowsers, [ascii "10.0.0.3"], ascii "n", ascii "e"⟩, []) ∧
      passesRef net24 ⟨chromeBrowsers, [ascii "10.0.0.1", ascii "10.0.0.2"], ascii "n", ascii "e"⟩ =
        false ∧
      passesRef net24 ⟨chromeBrowsers, [ascii "10.0.0.3"], ascii "n", ascii "e"⟩ = false ∧
      Fast (splitHitsLine ++ ascii "\n") [] [ascii "10.0.0.0/24"] =
        .ok (ascii "Total: 1\n[1] n <e>\n") := by
  decide!

/-- C4 (amended). When the table builds, the buffer splits into lines and
every line holds exactly one object, `Fast` writes the header with the number
of records that pass both thresholds (at least 3 hits that the table search
finds, at least 3 browsers that match), followed by the rows of the passing
records, one per record, in input order. -/
theorem fast_header_counts_passing (buf spare : List Byte) (networks : List (List Byte))
    (t : List IPRange) (lines : List (Nat × List Byte)) (recs : List InMy)
    (hnet : parseNetworksMy networks = .ok t) (hd : dispatch buf spare = .ok lines)
    (hone : List.Forall₂ (fun l r => OneRecord l.2 r) lines recs) :
    Fast buf spare networks =
        .ok (ascii "Total: " ++ decimal (recs.countP (passesRef t)) ++ ascii "\n" ++
          ((passingRows t lines recs).map (·.Line)).flatten) ∧
      (passingRows t lines recs).length = recs.countP (passesRef t) := by
  obtain ⟨rowss, hr, hf⟩ := runTasks_one t lines recs hone
  have hlen := passingRows_length t lines recs hone.length_eq
  refine ⟨?_, hlen⟩
  simp only [Fast, collect, hnet, hd, hr, Res.bind, hf]
  rw [emit_sorted _ (passingRows_sorted t lines recs (dispatch_ids buf spare lines hd)), hlen]

/-- C4 (amended), at the scenario line given twice. -/
theorem fast_header_counts_passing_witness :
    Fast twoLines [] [ascii "10.0.0.0/24"] =
        .ok (ascii "Total: " ++ decimal ([annRecord, annRecord].countP (passesRef net24)) ++
          ascii "\n" ++
          ((passingRows net24 [(1, scenarioLine), (2, scenarioLine)]
            [annRecord, annRecord]).map (·.Line)).flatten) ∧
      (passingRows net24 [(1, scenarioLine), (2, scenarioLine)] [annRecord, annRecord]).length =
        [annRecord, annRecord].countP (passesRef net24) :=
  fast_header_counts_passing twoLines [] [ascii "10.0.0.0/24"] net24
    [(1, scenarioLine), (2, scenarioLine)] [annRecord, annRecord] (by decide!) (by decide!)
    (List.Forall₂.cons ⟨scenarioLine.drop 1, by decide!, by decide!⟩
      (List.Forall₂.cons ⟨scenarioLine.drop 1, by decide!, by decide!⟩ List.Forall₂.nil))

/-- C5 (as stated) fails on a line from which the task appends two rows:
both carry the sequence number 1, so the sorted rows are not strictly
ascending, and the bytes written depend on the order in which the two rows
arrive. -/
theorem rows_of_one_line_tie :
    collect (renamedLine ++ ascii "\n") [] [ascii "10.0.0.0/24"] =
        .ok [⟨ascii "[1] n <e>\n", 1⟩, ⟨ascii "[1] b <e>\n", 1⟩] ∧
      ¬ (sortSlice (fun a b => decide (a.Pos < b.Pos))
          [(⟨ascii "[1] n <e>\n", 1⟩ : ResultRow), ⟨ascii "[1] b <e>\n", 1⟩]).Pairwise
        (fun a b => a.Pos < b.Pos) ∧
      emit [⟨ascii "[1] b <e>\n", 1⟩, ⟨ascii "[1] n <e>\n", 1⟩] ≠
        emit [⟨ascii "[1] n <e>\n", 1⟩, ⟨ascii "[1] b <e>\n", 1⟩] := by
  decide!

/-- C5 (amended). When no task fails and every task appends at most one
row, then for every order in which the rows arrive the sorted rows are
strictly ascending in their sequence numbers and the bytes written are those
of the sequential run `Fast`. -/
theorem emit_order_independent (buf spare : List Byte) (networks : List (List Byte))
    (t : List IPRange) (lines : List (Nat × List Byte)) (rowss : List (List ResultRow))
    (hnet : parseNetworksMy networks = .ok t) (hd : dispatch buf spare = .ok lines)
    (hrun : runTasks JsonPiper.init t lines = .ok rowss)
    (hone : ∀ rs ∈ rowss, rs.length ≤ 1)
    (results : List ResultRow) (hperm : results.Perm rowss.flatten) :
    (sortSlice (fun a b => decide (a.Pos < b.Pos)) results).Pairwise
        (fun a b => a.Pos < b.Pos) ∧
      Fast buf spare networks = .ok (emit results) := by
  have hs := (runTasks_rows JsonPiper.init t lines rowss hrun (dispatch_ids buf spare lines hd)
    hone).1
  have hsort := sortSlice_of_perm_strict (fun r : ResultRow => r.Pos) rowss.flatten results hperm hs
  refine ⟨by rw [hsort]; exact hs, ?_⟩
  simp only [Fast, collect, hnet, hd, hrun, Res.bind]
  congr 1
  unfold emit
  rw [hsort, sortSlice_of_perm_strict (fun r : ResultRow => r.Pos) rowss.flatten rowss.flatten
    (List.Perm.refl _) hs, hperm.length_eq]

/-- C5 (amended), at the scenario line given twice, the second row arriving
first. -/
theorem emit_order_independent_witness :
    (sortSlice (fun a b => decide (a.Pos < b.Pos))
        [formatRow 2 annRecord, formatRow 1 annRecord]).Pairwise (fun a b => a.Pos < b.Pos) ∧
      Fast twoLines [] [ascii "10.0.0.0/24"] =
        .ok (emit [formatRow 2 annRecord, formatRow 1 annRecord]) :=
  emit_order_independent twoLines [] [ascii "10.0.0.0/24"] net24
    [(1, scenarioLine), (2, scenarioLine)] [[formatRow 1 annRecord], [formatRow 2 annRecord]]
    (by decide!) (by decide!) (by decide!) (by decide)
    [formatRow 2 annRecord, formatRow 1 annRecord] (List.Perm.swap _ _ _)

/-- C6. The end-to-end scenario: the line of the scenario, terminated by a
newline, with the network `10.0.0.0/24`, makes `Fast` write exactly
`Total: 1`, newline, `[1] Ann <a [at] b.com>`, newline. -/
theorem fast_scenario (spare : List Byte) :
    Fast (scenarioLine ++ ascii "\n") spare [ascii "10.0.0.0/24"] =
      .ok (ascii "Total: 1\n[1] Ann <a [at] b.com>\n") := by
  have hd : dispatch (scenarioLine ++ ascii "\n") spare = .ok [(1, scenarioLine)] :=
    dispatch_single scenarioLine spare (by decide!)
  have hrest : (parseNetworksMy [ascii "10.0.0.0/24"]).bind (fun netParsed =>
      (runTasks JsonPiper.init netParsed [(1, scenarioLine)]).bind fun rowss =>
        Res.ok (emit rowss.flatten)) = .ok (ascii "Total: 1\n[1] Ann <a [at] b.com>\n") := by
    decide!
  rw [← hrest]
  unfold Fast collect
  rw [hd]
  cases parseNetworksMy [ascii "10.0.0.0/24"] with
  | ok t =>
    simp only [Res.bind]
    cases runTasks JsonPiper.init t [(1, scenarioLine)] <;> rfl
  | panic => rfl
  | fuel => rfl

/-- C7. The row of a passing record: it carries the sequence number, and its
line is `[`, the decimal sequence number, `] `, the name, ` <`, the email
with its first `@` replaced by ` [at] ` (later ones kept, the email unchanged
when it has none), `>` and a newline. -/
theorem result_line_format (t : List IPRange) (userId hitsCnt browsersCnt : Nat) (inp : InMy)
    (h b : Nat) (row : ResultRow)
    (he : evalRecord t userId hitsCnt browsersCnt inp = .ok (h, b, some row)) :
    row.Pos = userId ∧ decimal userId = ascii (Nat.repr userId) ∧
      ∃ e, row.Line = ascii "[" ++ decimal userId ++ ascii "] " ++ inp.Name ++ ascii " <" ++ e ++
          ascii ">\n" ∧
        (64 ∉ inp.Email → e = inp.Email) ∧
        ∀ pre post, inp.Email = pre ++ 64 :: post → 64 ∉ pre →
          e = pre ++ ascii " [at] " ++ post := by
  have hr := evalRecord_row t userId hitsCnt browsersCnt inp h b _ he row rfl
  subst hr
  refine ⟨rfl, decimal_eq_repr userId, replaceFirst 64 (ascii " [at] ") inp.Email, rfl, ?_, ?_⟩
  · exact replaceFirst_absent 64 _ _
  · intro pre post hpp hpre
    rw [hpp]
    exact replaceFirst_first 64 _ pre post hpre

/-- C7, at the record of the scenario. -/
theorem result_line_format_witness :
    evalRecord net24 1 0 0 annRecord = .ok (3, 3, some (formatRow 1 annRecord)) ∧
      (formatRow 1 annRecord).Pos = 1 ∧ decimal 1 = ascii (Nat.repr 1) ∧
      ∃ e, (formatRow 1 annRecord).Line = ascii "[" ++ decimal 1 ++ ascii "] " ++
          annRecord.Name ++ ascii " <" ++ e ++ ascii ">\n" ∧
        (64 ∉ annRecord.Email → e = annRecord.Email) ∧
        ∀ pre post, annRecord.Email = pre ++ 64 :: post → 64 ∉ pre →
          e = pre ++ ascii " [at] " ++ post :=
  have he : evalRecord net24 1 0 0 annRecord = .ok (3, 3, some (formatRow 1 annRecord)) := by
    decide!
  ⟨he, result_line_format net24 1 0 0 annRecord 3 3 (formatRow 1 annRecord) he⟩

/-- C8. Round trip of the record scanner: the text of an object that holds
the eight schema fields in any order, with quote-free strings and non-empty
arrays, scans to the record of the given hits, browsers, name and email
(whatever the record held before and whatever the four discarded values
are), the line is used up, and the next call reports no more records. -/
theorem scanner_round_trip (browsers hits : List (List Byte))
    (name email company country job phone : List Byte)
    (hq : QuoteFree browsers hits name email company country job phone)
    (fs : List (List Byte × FieldVal))
    (hperm : fs.Perm (schemaFields browsers hits name email company country job phone))
    (inp : InMy) :
    ∃ js, setupScanner (renderObject fs) = .ok js ∧
      scanner JsonPiper.init inp js =
        .ok (true, { Browsers := browsers, Hits := hits, Name := name, Email := email }, []) ∧
      scanner JsonPiper.init
          { Browsers := browsers, Hits := hits, Name := name, Email := email } [] =
        .ok (false, { Browsers := browsers, Hits := hits, Name := name, Email := email }, []) := by
  refine ⟨renderFields fs ++ [125], by simp [setupScanner, renderObject, checkCh], ?_, by
    simp [scanner, scanLoop]⟩
  have hmem : ∀ f ∈ fs, f ∈ schemaFields browsers hits name email company country job phone :=
    fun f hf => hperm.subset hf
  have hne : fs ≠ [] := by
    intro e
    have := hperm.length_eq
    rw [e] at this
    simp [schemaFields] at this
  have hlen : fs.length ≤ (renderFields fs ++ [125]).length + 1 := by
    have := renderFields_length fs
    simp only [List.length_append, List.length_singleton]; omega
  unfold scanner
  rw [scanLoop_fields hq [] fs inp _ hne hmem hlen]
  obtain ⟨f1, f2, f3, f4⟩ := foldl_updField fs inp hmem
  have m : ∀ g ∈ schemaFields browsers hits name email company country job phone, g ∈ fs :=
    fun g hg => hperm.symm.subset hg
  have e1 := f1 (Or.inl ⟨_, m (ascii "browsers", .arr browsers) (by simp [schemaFields]), rfl⟩)
  have e2 := f2 (Or.inl ⟨_, m (ascii "hits", .arr hits) (by simp [schemaFields]), rfl⟩)
  have e3 := f3 (Or.inl ⟨_, m (ascii "name", .str name) (by simp [schemaFields]), rfl⟩)
  have e4 := f4 (Or.inl ⟨_, m (ascii "email", .str email) (by simp [schemaFields]), rfl⟩)
  congr 2
  cases hfold : List.foldl updField inp fs with
  | mk B H N E =>
    rw [hfold] at e1 e2 e3 e4
    simp only at e1 e2 e3 e4
    rw [e1, e2, e3, e4]

/-- C8, at the fields of the scenario in reverse order. -/
theorem scanner_round_trip_witness :
    QuoteFree chromeBrowsers [ascii "10.0.0.1"] (ascii "Ann") (ascii "a@b.com") (ascii "A")
        (ascii "X") (ascii "Y") (ascii "1") ∧
      ∃ js, setupScanner (renderObject (schemaFields chromeBrowsers [ascii "10.0.0.1"]
          (ascii "Ann") (ascii "a@b.com") (ascii "A") (ascii "X") (ascii "Y")
          (ascii "1")).reverse) = .ok js ∧
        scanner JsonPiper.init ⟨[], [], [], []⟩ js =
          .ok (true, ⟨chromeBrowsers, [ascii "10.0.0.1"], ascii "Ann", ascii "a@b.com"⟩, []) ∧
        scanner JsonPiper.init
            ⟨chromeBrowsers, [ascii "10.0.0.1"], ascii "Ann", ascii "a@b.com"⟩ [] =
          .ok (false, ⟨chromeBrowsers, [ascii "10.0.0.1"], ascii "Ann", ascii "a@b.com"⟩, []) :=
  have hq : QuoteFree chromeBrowsers [ascii "10.0.0.1"] (ascii "Ann") (ascii "a@b.com")
      (ascii "A") (ascii "X") (ascii "Y") (ascii "1") := by
    unfold QuoteFree
    decide
  ⟨hq, scanner_round_trip chromeBrowsers [ascii "10.0.0.1"] (ascii "Ann") (ascii "a@b.com")
    (ascii "A") (ascii "X") (ascii "Y") (ascii "1") hq _ (List.reverse_perm _) ⟨[], [], [], []⟩⟩

/-- C9 (as stated) fails: a spec without a prefix length, and a spec whose
prefix length is not a number, are both accepted; the error of `ParseUint`
is dropped, the prefix length reads as 0 and the mask is 0. -/
theorem malformed_spec_accepted :
    parseNetworksMy [ascii "10.0.0.0"] = .ok [⟨167772160, 0, 0⟩] ∧
      parseNetworksMy [ascii "10.0.0.0/x"] = .ok [⟨167772160, 0, 0⟩] := by
  decide!

/-- C9 (amended). `parseNetworksMy` fails fatally exactly when some spec of
the list is the empty string; for every other list it returns a table. -/
theorem parseNetworksMy_panic_iff (specs : List (List Byte)) :
    (parseNetworksMy specs = .panic ↔ [] ∈ specs) ∧
      ((∃ t, parseNetworksMy specs = .ok t) ↔ [] ∉ specs) := by
  have hok := parseNetworksLoop_ok_iff specs
  have hfuel := parseNetworksLoop_ne_fuel specs
  unfold parseNetworksMy
  cases hl : parseNetworksLoop specs with
  | ok rs =>
    have : [] ∉ specs := hok.1 ⟨rs, hl⟩
    simp [this]
  | panic =>
    have : ¬ [] ∉ specs := fun h => by
      obtain ⟨rs, hrs⟩ := hok.2 h
      rw [hl] at hrs
      exact absurd hrs (by simp)
    simp only [not_not] at this
    simp [this]
  | fuel => exact absurd hl hfuel

/-- C10 fails on the code: on a line that ends right after a comma the
scanner returns `false`, the signal for no more records, without any panic,
and `Fast` writes a header for zero records. -/
theorem scanner_silent_after_comma :
    setupScanner (ascii "\x7b\"name\":\"Ann\",") = .ok (ascii "\"name\":\"Ann\",") ∧
      scanner JsonPiper.init ⟨[], [], [], []⟩ (ascii "\"name\":\"Ann\",") =
        .ok (false, ⟨[], [], ascii "Ann", []⟩, []) ∧
      Fast (ascii "\x7b\"name\":\"Ann\",\n") [] [ascii "10.0.0.0/24"] =
        .ok (ascii "Total: 0\n") := by
  decide!

/-! # The claims, continued -/

/-- C11. In the text of an object whose strings hold no double quote, a field
name that is not one of the eight recognised names (compared byte for byte)
makes the scanner panic: it returns no record, whatever the other fields
are. -/
theorem unknown_field_fatal (fs : List (List Byte × FieldVal))
    (hq : ∀ f ∈ fs, FieldQuoteFree f) (hu : ∃ f ∈ fs, f.1 ∉ recognisedNames) (inp : InMy) :
    ∃ js, setupScanner (renderObject fs) = .ok js ∧ scanner JsonPiper.init inp js = .panic := by
  refine ⟨renderFields fs ++ [125], by simp [setupScanner, renderObject, checkCh], ?_⟩
  have hlen : fs.length ≤ (renderFields fs ++ [125]).length + 1 := by
    have := renderFields_length fs
    simp only [List.length_append, List.length_singleton]; omega
  exact scanLoop_unknown [] fs inp _ hq hu hlen

/-- C11, at an object with the fields `name` and `Name`. -/
theorem unknown_field_fatal_witness :
    ((∀ f ∈ [(ascii "name", FieldVal.str (ascii "Ann")), (ascii "Name", .str (ascii "Bob"))],
        FieldQuoteFree f) ∧
      ∃ f ∈ [(ascii "name", FieldVal.str (ascii "Ann")), (ascii "Name", .str (ascii "Bob"))],
        f.1 ∉ recognisedNames) ∧
      ∃ js, setupScanner (renderObject
          [(ascii "name", FieldVal.str (ascii "Ann")), (ascii "Name", .str (ascii "Bob"))]) =
            .ok js ∧
        scanner JsonPiper.init ⟨[], [], [], []⟩ js = .panic :=
  have hq : ∀ f ∈ [(ascii "name", FieldVal.str (ascii "Ann")), (ascii "Name", .str (ascii "Bob"))],
      FieldQuoteFree f := by
    intro f hf
    simp only [List.mem_cons, List.mem_singleton, List.not_mem_nil, or_false] at hf
    rcases hf with rfl | rfl <;> (unfold FieldQuoteFree; decide)
  have hu : ∃ f ∈ [(ascii "name", FieldVal.str (ascii "Ann")), (ascii "Name", .str (ascii "Bob"))],
      f.1 ∉ recognisedNames :=
    ⟨(ascii "Name", .str (ascii "Bob")), by simp, by decide⟩
  ⟨⟨hq, hu⟩, unknown_field_fatal _ hq hu ⟨[], [], [], []⟩⟩

/-- C12 (as stated) fails: the scenario object without its `phone` field is
scanned without failure and gives the record of the scenario. -/
theorem object_without_phone_scans :
    setupScanner (renderObject noPhoneFields) = .ok (renderFields noPhoneFields ++ [125]) ∧
      scanner JsonPiper.init ⟨[], [], [], []⟩ (renderFields noPhoneFields ++ [125]) =
        .ok (true, annRecord, []) := by
  decide!

/-- C12 (amended). The text of an object that holds any non-empty selection of
the eight schema fields, in any order, with quote-free strings and non-empty
arrays, also one that omits some or all of `company`, `country`, `job` and
`phone`, scans to a record: the retained fields that are present are stored,
the others keep the value they had, and the text is used up. -/
theorem selection_of_fields_scans (browsers hits : List (List Byte))
    (name email company country job phone : List Byte)
    (hq : QuoteFree browsers hits name email company country job phone)
    (fs : List (List Byte × FieldVal)) (hne : fs ≠ [])
    (hmem : ∀ f ∈ fs, f ∈ schemaFields browsers hits name email company country job phone)
    (inp : InMy) :
    ∃ js, setupScanner (renderObject fs) = .ok js ∧
      scanner JsonPiper.init inp js = .ok (true, fs.foldl updField inp, []) := by
  refine ⟨renderFields fs ++ [125], by simp [setupScanner, renderObject, checkCh], ?_⟩
  have hlen : fs.length ≤ (renderFields fs ++ [125]).length + 1 := by
    have := renderFields_length fs
    simp only [List.length_append, List.length_singleton]; omega
  exact scanLoop_fields hq [] fs inp _ hne hmem hlen

/-- C12 (amended), at the scenario object without its `phone` field. -/
theorem selection_of_fields_scans_witness :
    (QuoteFree chromeBrowsers [ascii "10.0.0.1", ascii "10.0.0.2", ascii "10.0.0.3"]
        (ascii "Ann") (ascii "a@b.com") (ascii "A") (ascii "X") (ascii "Y") (ascii "1") ∧
      noPhoneFields ≠ []) ∧
      ∃ js, setupScanner (renderObject noPhoneFields) = .ok js ∧
        scanner JsonPiper.init ⟨[], [], [], []⟩ js =
          .ok (true, noPhoneFields.foldl updField ⟨[], [], [], []⟩, []) :=
  have hq : QuoteFree chromeBrowsers [ascii "10.0.0.1", ascii "10.0.0.2", ascii "10.0.0.3"]
      (ascii "Ann") (ascii "a@b.com") (ascii "A") (ascii "X") (ascii "Y") (ascii "1") := by
    unfold QuoteFree
    decide
  have hne : noPhoneFields ≠ [] := by decide
  ⟨⟨hq, hne⟩, selection_of_fields_scans _ _ _ _ _ _ _ _ hq noPhoneFields hne (by decide)
    ⟨[], [], [], []⟩⟩

/-- C13. Round trip between text and number of an address: `parseIP` reads
the text `IP.String` of every 32-bit address back to the address, and reads
the text `a.b.c.d` of four octets up to 255 as
`a * 2^24 + b * 2^16 + c * 2^8 + d`. -/
theorem parseIP_round_trip :
    (∀ ip, ip < u32 → (parseIP (IP.String ip)).1 = ip) ∧
      ∀ a b c d, a ≤ 255 → b ≤ 255 → c ≤ 255 → d ≤ 255 →
        (parseIP (dotted a b c d)).1 = a * 2 ^ 24 + b * 2 ^ 16 + c * 2 ^ 8 + d := by
  refine ⟨fun ip hip => ?_, fun a b c d ha hb hc hd => parseIP_dotted a b c d ha hb hc hd⟩
  obtain ⟨h1, h2, h3, h4, he⟩ := octets_of_address ip hip
  unfold IP.String
  rw [parseIP_dotted _ _ _ _ h1 h2 h3 h4]
  exact he

/-- C13, at the addresses `10.0.0.1` and `255.255.255.255`. -/
theorem parseIP_round_trip_witness :
    (parseIP (IP.String 167772161)).1 = 167772161 ∧
      (parseIP (dotted 255 255 255 255)).1 = 255 * 2 ^ 24 + 255 * 2 ^ 16 + 255 * 2 ^ 8 + 255 :=
  ⟨parseIP_round_trip.1 167772161 (by decide),
    parseIP_round_trip.2 255 255 255 255 (by decide) (by decide) (by decide) (by decide)⟩

/-- C14. For well-formed specs `A.B.C.D/N` (octets up to 255, `N` from 0 to
32) `parseNetworksMy` returns a table that holds, for every spec, the range
with base `A.B.C.D`, mask `2^32 - 2^(32-N)` (exactly the leading `N` bits),
masked base `IP & Mask`, and with membership of a 32-bit address meaning
agreement with the base on the leading `N` bits; and it holds no other
range. -/
theorem range_of_spec (specs : List Spec) (hwf : ∀ s ∈ specs, s.WF) :
    ∃ t, parseNetworksMy (specs.map Spec.text) = .ok t ∧
      (∀ s ∈ specs, ∃ r ∈ t, r.BuiltFrom s) ∧ ∀ r ∈ t, ∃ s ∈ specs, r.BuiltFrom s := by
  obtain ⟨t, ht, hperm⟩ := parseNetworksMy_perm specs hwf
  refine ⟨t, ht, fun s hs => ?_, fun r hr => ?_⟩
  · exact ⟨s.range, hperm.symm.subset (List.mem_map.2 ⟨s, hs, rfl⟩),
      Spec.range_builtFrom s (hwf s hs)⟩
  · obtain ⟨s, hs, rfl⟩ := List.mem_map.1 (hperm.subset hr)
    exact ⟨s, hs, Spec.range_builtFrom s (hwf s hs)⟩

/-- C14, at the specs `10.0.0.0/0` and `1.2.3.4/32`. -/
theorem range_of_spec_witness :
    (∀ s ∈ [(⟨10, 0, 0, 0, 0⟩ : Spec), ⟨1, 2, 3, 4, 32⟩], s.WF) ∧
      ∃ t, parseNetworksMy ([(⟨10, 0, 0, 0, 0⟩ : Spec), ⟨1, 2, 3, 4, 32⟩].map Spec.text) = .ok t ∧
        (∀ s ∈ [(⟨10, 0, 0, 0, 0⟩ : Spec), ⟨1, 2, 3, 4, 32⟩], ∃ r ∈ t, r.BuiltFrom s) ∧
        ∀ r ∈ t, ∃ s ∈ [(⟨10, 0, 0, 0, 0⟩ : Spec), ⟨1, 2, 3, 4, 32⟩], r.BuiltFrom s :=
  have hwf : ∀ s ∈ [(⟨10, 0, 0, 0, 0⟩ : Spec), ⟨1, 2, 3, 4, 32⟩], s.WF := by
    intro s hs
    simp only [List.mem_cons, List.mem_singleton, List.not_mem_nil, or_false] at hs
    rcases hs with rfl | rfl <;> (unfold Spec.WF; decide)
  ⟨hwf, range_of_spec _ hwf⟩

/-- C15. Short-circuit equivalence: for every record and every range table,
the evaluator, which stops counting hits and browsers at the threshold,
produces the row of the record exactly when the reference decision
`passesRef`, which counts all hits that the table search finds and all
browsers that match, reaches 3 on both counts. -/
theorem short_circuit_equivalence (t : List IPRange) (userId : Nat) (inp : InMy) :
    ∃ h b, evalRecord t userId 0 0 inp =
        .ok (h, b, if passesRef t inp then some (formatRow userId inp) else none) ∧
      (passesRef t inp = true ↔
        3 ≤ inp.Hits.countP (fun x => decide (searchIPInNetworks (parseIP x).1 t = .ok true)) ∧
          3 ≤ inp.Browsers.countP userAgentMatch) := by
  obtain ⟨h, b, he⟩ := evalRecord_fresh t userId inp
  exact ⟨h, b, he, by simp [passesRef, hitsThresh, browsersThresh]⟩

/-- C16. On every list of ranges and every address the search returns an
answer (it neither runs on nor indexes outside the list), and a positive
answer names a range of the list that contains the address. -/
theorem search_total_and_sound (ip : Nat) (t : List IPRange) :
    (∃ b, searchIPInNetworks ip t = .ok b) ∧
      (searchIPInNetworks ip t = .ok true → ∃ r ∈ t, r.Contains ip = true) :=
  ⟨searchIPInNetworks_total ip t, fun h => searchLoop_sound ip t _ _ _ h⟩

/-- C16, at the overlapping table and the address `10.1.0.1`. -/
theorem search_total_and_sound_witness :
    searchIPInNetworks 167837697 overlapTable = .ok true ∧
      ∃ r ∈ overlapTable, r.Contains 167837697 = true :=
  have h : searchIPInNetworks 167837697 overlapTable = .ok true := by decide!
  ⟨h, (search_total_and_sound 167837697 overlapTable).2 h⟩

/-- C17 (as stated) fails on a line that the scanner reads without failing:
after the closing brace of the first record the line goes on with one more
field, the scanner returns a second record, and the task appends two rows
with the sequence number of the line. -/
theorem task_appends_two_rows :
    scanner JsonPiper.init ⟨[], [], [], []⟩ (renamedLine.drop 1) =
        .ok (true, ⟨chromeBrowsers, [ascii "10.0.0.1", ascii "10.0.0.2", ascii "10.0.0.3"],
          ascii "n", ascii "e"⟩, ascii "\"name\":\"b\"\x7d") ∧
      scanner JsonPiper.init
          ⟨chromeBrowsers, [ascii "10.0.0.1", ascii "10.0.0.2", ascii "10.0.0.3"],
            ascii "n", ascii "e"⟩ (ascii "\"name\":\"b\"\x7d") =
        .ok (true, ⟨chromeBrowsers, [ascii "10.0.0.1", ascii "10.0.0.2", ascii "10.0.0.3"],
          ascii "b", ascii "e"⟩, []) ∧
      runTask JsonPiper.init net24 1 renamedLine =
        .ok [⟨ascii "[1] n <e>\n", 1⟩, ⟨ascii "[1] b <e>\n", 1⟩] := by
  decide!

/-- C17 (amended). For a line that holds exactly one object (the first call
of the scanner returns a record and has used up the line), the next call of
the scanner reports no more records and the task appends at most one row; and
on every line, every row that the task appends carries the sequence number of
the line. -/
theorem task_at_most_one_row (t : List IPRange) (userId : Nat) (line : List Byte) (r : InMy)
    (h : OneRecord line r) :
    scanner JsonPiper.init r [] = .ok (false, r, []) ∧
      ∃ rows, runTask JsonPiper.init t userId line = .ok rows ∧ rows.length ≤ 1 ∧
        ∀ row ∈ rows, row.Pos = userId := by
  refine ⟨by simp [scanner, scanLoop], _, runTask_one t userId line r h, ?_,
    runTask_pos _ t userId line _ (runTask_one t userId line r h)⟩
  split <;> simp

/-- C17 (amended), at the scenario line. -/
theorem task_at_most_one_row_witness :
    OneRecord scenarioLine annRecord ∧
      scanner JsonPiper.init annRecord [] = .ok (false, annRecord, []) ∧
      ∃ rows, runTask JsonPiper.init net24 1 scenarioLine = .ok rows ∧ rows.length ≤ 1 ∧
        ∀ row ∈ rows, row.Pos = 1 :=
  have h : OneRecord scenarioLine annRecord := ⟨scenarioLine.drop 1, by decide!, by decide!⟩
  ⟨h, task_at_most_one_row net24 1 scenarioLine annRecord h⟩

/-- C18 fails on the code: the dots of the pattern are not escaped, so the
entry `Chrome/60x0.3112.90`, which holds none of the three signatures, matches
`userAgentRe`, and three such entries bring the browser counter to the
threshold; an entry that holds a signature matches as well. -/
theorem pattern_dot_matches_any_byte :
    userAgentMatch (ascii "Chrome/60x0.3112.90") = true ∧
      (chromeBrowsers.all fun sig => !containsSub sig (ascii "Chrome/60x0.3112.90")) = true ∧
      countBrowsers [ascii "Chrome/60x0.3112.90", ascii "Chrome/52.0x2743.116",
        ascii "Chrome/57-0-2987-133"] 0 = 3 ∧
      userAgentMatch (ascii "Mozilla Chrome/60.0.3112.90 Safari") = true ∧
      containsSub (ascii "Chrome/60.0.3112.90") (ascii "Mozilla Chrome/60.0.3112.90 Safari") =
        true := by
  decide!

/-- C19. Permissive address parsing: when `p` holds only digits and dots and
`c` is neither, `parseIP` reads from `p`, `c` and any further bytes the
address that it reads from `p` alone, and stops at the index of `c`, the
length of `p`. -/
theorem parseIP_stops_at_other_byte (p : List Byte) (c : Byte) (t : List Byte)
    (hp : ∀ x ∈ p, x = 46 ∨ (48 ≤ x ∧ x ≤ 57)) (hc : ¬ (c = 46 ∨ (48 ≤ c ∧ c ≤ 57))) :
    (parseIP (p ++ c :: t)).1 = (parseIP p).1 ∧ (parseIP (p ++ c :: t)).2 = p.length := by
  obtain ⟨h1, h2, h3⟩ := parseIPLoop_stop c t hc p 0 0 0 24 0 hp
  have e : ∀ s : List Nat, (parseIP s).1 = (if (parseIPLoop s 0 0 0 24 0).2.1 > 0
      then ((parseIPLoop s 0 0 0 24 0).1 + (parseIPLoop s 0 0 0 24 0).2.1) % u32
      else (parseIPLoop s 0 0 0 24 0).1) := fun _ => rfl
  have e2 : ∀ s : List Nat, (parseIP s).2 = (parseIPLoop s 0 0 0 24 0).2.2 := fun _ => rfl
  refine ⟨?_, ?_⟩
  · rw [e, e, h1, h2]
  · rw [e2, h3]; omega

/-- C19, at the text `10.0.0.7x/24`. -/
theorem parseIP_stops_at_other_byte_witness :
    ((∀ x ∈ ascii "10.0.0.7", x = 46 ∨ (48 ≤ x ∧ x ≤ 57)) ∧
      ¬ ((120 : Nat) = 46 ∨ (48 ≤ (120 : Nat) ∧ (120 : Nat) ≤ 57))) ∧
      (parseIP (ascii "10.0.0.7" ++ 120 :: ascii "/24")).1 = (parseIP (ascii "10.0.0.7")).1 ∧
      (parseIP (ascii "10.0.0.7" ++ 120 :: ascii "/24")).2 = (ascii "10.0.0.7").length :=
  have hp : ∀ x ∈ ascii "10.0.0.7", x = 46 ∨ (48 ≤ x ∧ x ≤ 57) := by decide
  have hc : ¬ ((120 : Nat) = 46 ∨ (48 ≤ (120 : Nat) ∧ (120 : Nat) ≤ 57)) := by decide
  ⟨⟨hp, hc⟩, parseIP_stops_at_other_byte (ascii "10.0.0.7") 120 (ascii "/24") hp hc⟩

end Conf
